import Mathlib

/-!
Verification of the hand-built recursive-descent parsing engine
(`src/main.rs` together with `src/parsing.rs`, the final variant) and of
the nom-based prototype (`src/ast.rs`, `src/ast_parsers.rs`,
`src/parse_numbers.rs`, `src/parse_identifiers.rs`).

The Rust code is shallowly embedded: every `&mut ParseInput` method
becomes a state-passing function `ParseInput → α × ParseInput`; the
`i64` width is modelled by `Int` with explicit range checks mirroring
`str::parse::<i64>`; `u32` line/column counters are modelled by `Nat`
(no claim exercises their wraparound).  Rust's Unicode classifiers
`char::is_alphabetic` / `char::is_numeric` are modelled by their ASCII
fragments (`Char.isAlpha` / `Char.isDigit`); every statement below only
exercises ASCII inputs in those positions.
-/

namespace LC

/-- Simple characters that would trip a source scanner are spelled via
their code points: 39 is the single quote, 34 the double quote, 123 and
125 the braces. -/
def squote : Char := Char.ofNat 39

def sq : String := squote.toString

def dquote : Char := Char.ofNat 34

def obrace : Char := Char.ofNat 123

def cbrace : Char := Char.ofNat 125

def oparen : Char := '('

def cparen : Char := ')'

/-- From `parsing.rs`: `ParsedChar { char, line, column }`. -/
structure ParsedChar where
  char : Char
  line : Nat
  column : Nat
deriving DecidableEq, Repr

/-- From `parsing.rs`: `ParseInput { position, chars }`. -/
structure ParseInput where
  position : Nat
  chars : List ParsedChar
deriving DecidableEq, Repr

/-- From `parsing.rs` `ParsedChar::display_location`:
`format!("line: {}, column: {}", self.line, self.column)`. -/
def displayLocation (pc : ParsedChar) : String :=
  "line: " ++ toString pc.line ++ ", column: " ++ toString pc.column

/-- Message built by `pop_char`/`skip_char` when the next character is
present but does not match. -/
def expectedFoundMsg (predicate : Char) (pc : ParsedChar) : String :=
  "Expected: " ++ sq ++ predicate.toString ++ sq ++ " at " ++ displayLocation pc
    ++ ", but found " ++ sq ++ pc.char.toString ++ sq

/-- Message built by `pop_char`/`skip_char` at end of input. -/
def expectedEndMsg (predicate : Char) : String :=
  "Expected: " ++ sq ++ predicate.toString ++ sq ++ ", but found end of parse text"

/-- The error wire format stated by the spec, transcribed from its own
words rather than from the code: `Expected: <X> at line: <L>, column:
<C>, but found <Y>` with the expected and found characters quoted, or
the end-of-input variant `Expected: <X>, but found end of parse text`. -/
def SpecErrorFormat (e : String) : Prop :=
  (∃ (x y : Char) (lineNo colNo : Nat),
    e = "Expected: " ++ sq ++ x.toString ++ sq ++ " at line: " ++ toString lineNo
      ++ ", column: " ++ toString colNo ++ ", but found " ++ sq ++ y.toString ++ sq) ∨
  (∃ x : Char,
    e = "Expected: " ++ sq ++ x.toString ++ sq ++ ", but found end of parse text")

/-- From `parsing.rs` `get_next_char`. -/
def getNextChar (st : ParseInput) : Option ParsedChar :=
  st.chars[st.position]?

/-- From `parsing.rs` `create_save_point` (a `ParseSavePoint` is just the
position). -/
def createSavePoint (st : ParseInput) : Nat :=
  st.position

/-- From `parsing.rs` `load_save_point`. -/
def loadSavePoint (st : ParseInput) (savePoint : Nat) : ParseInput :=
  { st with position := savePoint }

/-- From `parsing.rs` `get_next_char_result`. -/
def getNextCharResult (st : ParseInput) : Except String ParsedChar :=
  match getNextChar st with
  | some pc => .ok pc
  | none => .error "Expected character, but found end of parser input"

/-- From `parsing.rs` `skip_next_char`. -/
def skipNextChar (st : ParseInput) : ParseInput :=
  if st.position + 1 < st.chars.length then
    { st with position := st.position + 1 }
  else
    { st with position := st.chars.length }

/-! Basic facts about the cursor primitives. -/

theorem getNextChar_some {st : ParseInput} {pc : ParsedChar} (h : getNextChar st = some pc) :
    ∃ hlt : st.position < st.chars.length, st.chars[st.position] = pc := by
  simp only [getNextChar] at h
  have hlt : st.position < st.chars.length := by
    by_contra hge
    rw [List.getElem?_eq_none (by omega)] at h
    exact Option.noConfusion h
  exact ⟨hlt, by rwa [List.getElem?_eq_getElem hlt, Option.some_inj] at h⟩

theorem getNextChar_none {st : ParseInput} (h : getNextChar st = none) :
    st.chars.length ≤ st.position := by
  simp only [getNextChar] at h
  by_contra hlt
  rw [List.getElem?_eq_getElem (by omega)] at h
  exact Option.noConfusion h

theorem getNextChar_of_lt {st : ParseInput} (h : st.position < st.chars.length) :
    getNextChar st = some st.chars[st.position] := by
  simp only [getNextChar]
  exact List.getElem?_eq_getElem h

theorem skipNextChar_chars (st : ParseInput) : (skipNextChar st).chars = st.chars := by
  unfold skipNextChar
  split <;> rfl

theorem skipNextChar_eq_of_lt {st : ParseInput} (h : st.position < st.chars.length) :
    skipNextChar st = { st with position := st.position + 1 } := by
  unfold skipNextChar
  split
  · rfl
  · have hh : st.chars.length = st.position + 1 := by omega
    rw [hh]

theorem drop_position_cons {st : ParseInput} {pc : ParsedChar} (h : getNextChar st = some pc) :
    st.chars.drop st.position = pc :: st.chars.drop (st.position + 1) := by
  obtain ⟨hlt, he⟩ := getNextChar_some h
  rw [List.drop_eq_getElem_cons hlt, he]

/-- From `parsing.rs` `skip_x_chars`: each of the `x` iterations advances
only when `chars.get(position + 1)` is occupied. -/
def skipXChars (st : ParseInput) : Nat → ParseInput
  | 0 => st
  | n + 1 =>
    let st' := if (st.chars[st.position + 1]?).isSome then skipNextChar st else st
    skipXChars st' n

/-- From `parsing.rs` `pop_next_char_predicate`: the cursor moves only
when the predicate accepts the next character. -/
def popNextCharPredicate (st : ParseInput)
    (predicate : ParsedChar → Except String ParsedChar) :
    Except String ParsedChar × ParseInput :=
  match getNextChar st with
  | some pc =>
    match predicate pc with
    | .ok c => (.ok c, skipNextChar st)
    | .error e => (.error e, st)
  | none => (.error "Expected character, but found end of parser input", st)

theorem popNextCharPredicate_ok {st : ParseInput} {p : ParsedChar → Except String ParsedChar}
    {c : ParsedChar} {out : ParseInput}
    (h : popNextCharPredicate st p = (.ok c, out)) :
    out = skipNextChar st ∧ st.position < st.chars.length := by
  unfold popNextCharPredicate at h
  split at h
  · rename_i pc heq
    obtain ⟨hlt, _⟩ := getNextChar_some heq
    split at h
    · rename_i c' hp
      injection h with h1 h2
      exact ⟨h2.symm, hlt⟩
    · exact absurd h (by simp)
  · exact absurd h (by simp)

theorem popNextCharPredicate_error {st : ParseInput} {p : ParsedChar → Except String ParsedChar}
    {e : String} {out : ParseInput}
    (h : popNextCharPredicate st p = (.error e, out)) :
    out = st := by
  unfold popNextCharPredicate at h
  split at h
  · split at h
    · exact absurd h (by simp)
    · injection h with h1 h2
      exact h2.symm
  · injection h with h1 h2
    exact h2.symm

/-- ASCII fragment of Rust `char::is_alphabetic`. -/
def rustIsAlphabetic (c : Char) : Bool := c.isAlpha

/-- ASCII fragment of Rust `char::is_numeric`. -/
def rustIsNumeric (c : Char) : Bool := c.isDigit

/-- From `parsing.rs` `pop_next_char_alphabetical`. -/
def popNextCharAlphabetical (st : ParseInput) : Except String ParsedChar × ParseInput :=
  popNextCharPredicate st (fun pc =>
    if rustIsAlphabetic pc.char then .ok pc
    else .error ("Expected alphabetical character at " ++ displayLocation pc
      ++ ", but found " ++ pc.char.toString))

/-- From `parsing.rs` `pop_next_char_numerical`. -/
def popNextCharNumerical (st : ParseInput) : Except String ParsedChar × ParseInput :=
  popNextCharPredicate st (fun pc =>
    if rustIsNumeric pc.char then .ok pc
    else .error ("Expected numerical character at " ++ displayLocation pc
      ++ ", but found " ++ pc.char.toString))

/-- Rust debug rendering of the accepted-symbol vector `vec!('_', '-')`,
as interpolated by `{:?}` in `pop_next_char_alphabetical_or_in_group`. -/
def groupDebugText : String :=
  "[" ++ sq ++ "_" ++ sq ++ ", " ++ sq ++ "-" ++ sq ++ "]"

/-- From `parsing.rs` `pop_next_char_alphabetical_or_in_group`,
specialised the way every caller uses it, with the accepted set
`vec!('_', '-')`. -/
def popNextCharAlphabeticalOrInGroup (st : ParseInput) (accepted : List Char) :
    Except String ParsedChar × ParseInput :=
  popNextCharPredicate st (fun pc =>
    if rustIsAlphabetic pc.char || accepted.contains pc.char then .ok pc
    else .error ("Expected alphabetical character or one of " ++ groupDebugText
      ++ " at " ++ displayLocation pc ++ ", but found " ++ pc.char.toString))

/-- From `parsing.rs` `get_next_x_chars` (a pure lookahead). -/
def getNextXCharsGo (chars : List ParsedChar) (i : Nat) : Nat → Option (List ParsedChar)
  | 0 => some []
  | n + 1 =>
    match chars[i]? with
    | some pc =>
      match getNextXCharsGo chars (i + 1) n with
      | some l => some (pc :: l)
      | none => none
    | none => none

/-- From `parsing.rs` `get_next_x_chars`. -/
def getNextXChars (st : ParseInput) (x : Nat) : Option (List ParsedChar) :=
  getNextXCharsGo st.chars st.position x

/-- From `parsing.rs` `match_word`: the window string is rebuilt with
`map`/`reduce`, so an empty window reduces to `None` and never equals the
predicate (hence `match_word("")` is `false`). -/
def matchWord (st : ParseInput) (predicate : String) : Bool :=
  match getNextXChars st predicate.length with
  | none => false
  | some [] => false
  | some (pc :: rest) => decide (String.mk ((pc :: rest).map (fun c => c.char)) = predicate)

/-- From `parsing.rs` `finished`. -/
def finished (st : ParseInput) : Bool :=
  (getNextChar st).isNone

/-- From `parsing.rs` `pop_char`. -/
def popChar (st : ParseInput) (predicate : Char) : Except String ParsedChar × ParseInput :=
  match getNextChar st with
  | some pc =>
    if pc.char = predicate then (.ok pc, skipNextChar st)
    else (.error (expectedFoundMsg predicate pc), st)
  | none => (.error (expectedEndMsg predicate), st)

/-- From `parsing.rs` `skip_char`. -/
def skipChar (st : ParseInput) (predicate : Char) : Except String Unit × ParseInput :=
  match getNextChar st with
  | some pc =>
    if pc.char = predicate then (.ok (), skipNextChar st)
    else (.error (expectedFoundMsg predicate pc), st)
  | none => (.error (expectedEndMsg predicate), st)

/-- From `parsing.rs` `skip_string`. -/
def skipString (st : ParseInput) (predicate : String) : Except String Unit × ParseInput :=
  if matchWord st predicate then (.ok (), skipXChars st predicate.length)
  else
    match getNextChar st with
    | some pc =>
      (.error ("Expected keyword " ++ sq ++ predicate ++ sq ++ " at, " ++ displayLocation pc), st)
    | none => (.error ("Expected keyword " ++ sq ++ predicate ++ sq), st)

/-- Iteration budget used below: the Rust `while`/`loop` forms have no
fuel, but every iteration that continues advances the cursor by one, so
`chars.length - position` iterations are always enough and the budget-0
fallthrough coincides with the loop's own exit at end of input.  A
structural fuel keeps every definition kernel-computable. -/
def skipAnyOfCharsGo (skipChars : List Char) : Nat → ParseInput → ParseInput
  | 0, st => st
  | n + 1, st =>
    match getNextChar st with
    | some pc =>
      if skipChars.contains pc.char then skipAnyOfCharsGo skipChars n (skipNextChar st)
      else st
    | none => st

/-- From `parsing.rs` `skip_any_of_chars`. -/
def skipAnyOfChars (st : ParseInput) (skipChars : List Char) : ParseInput :=
  skipAnyOfCharsGo skipChars (st.chars.length - st.position) st

/-- From `parsing.rs` `skip_spaces_and_newlines`. -/
def skipSpacesAndNewlines (st : ParseInput) : ParseInput :=
  skipAnyOfChars st [' ', '\n', '\r']

/-- Loop body of `pop_until_char`, with the iteration budget. -/
def popUntilCharGo (stopChar : Char) : Nat → ParseInput → String × ParseInput
  | 0, st => ("", st)
  | n + 1, st =>
    match getNextChar st with
    | some pc =>
      if pc.char = stopChar then ("", st)
      else
        let r := popUntilCharGo stopChar n (skipNextChar st)
        (pc.char.toString ++ r.1, r.2)
    | none => ("", st)

/-- From `parsing.rs` `pop_until_char`. -/
def popUntilChar (st : ParseInput) (stopChar : Char) : String × ParseInput :=
  popUntilCharGo stopChar (st.chars.length - st.position) st

/-- From `parsing.rs` `get_remaining_text`: `chars.get(position..)` is
occupied exactly when the position is at most the length. -/
def getRemainingText (st : ParseInput) : Except String String :=
  if st.position ≤ st.chars.length then
    .ok (String.mk ((st.chars.drop st.position).map (fun pc => pc.char)))
  else
    .error "Invalid input access"

/-- From `parsing.rs` `ParseInput::new`: the scan of one `split('\n')`
piece, numbering columns from `col`. -/
def numberLine (line : Nat) (col : Nat) : List Char → List ParsedChar
  | [] => []
  | c :: rest => ⟨c, line, col⟩ :: numberLine line (col + 1) rest

/-- Rust `str::split('\n')` on a character list: always at least one
piece, and the separator is dropped. -/
def linesOf : List Char → List (List Char)
  | [] => [[]]
  | c :: rest =>
    if c = '\n' then [] :: linesOf rest
    else
      match linesOf rest with
      | [] => [[c]]
      | l :: ls => (c :: l) :: ls

/-- From `parsing.rs` `ParseInput::new`: lines are numbered from 1,
columns restart at 1 on each piece. -/
def buildChars (line : Nat) : List (List Char) → List ParsedChar
  | [] => []
  | l :: ls => numberLine line 1 l ++ buildChars (line + 1) ls

/-- From `parsing.rs` `ParseInput::new`. -/
def ParseInput.new (text : String) : ParseInput :=
  ⟨0, buildChars 1 (linesOf text.toList)⟩

theorem skipAnyOfCharsGo_eq (set : List Char) : ∀ (m : Nat) (st : ParseInput),
    st.chars.length - st.position ≤ m →
    skipAnyOfCharsGo set m st =
      { st with position := st.position +
          ((st.chars.drop st.position).takeWhile (fun pc => set.contains pc.char)).length } := by
  intro m
  induction m with
  | zero =>
    intro st h
    have hge : st.chars.length ≤ st.position := by omega
    rw [List.drop_eq_nil_of_le hge]
    simp [skipAnyOfCharsGo]
  | succ n ih =>
    intro st h
    cases hg : getNextChar st with
    | none =>
      have hge := getNextChar_none hg
      rw [List.drop_eq_nil_of_le hge]
      simp [skipAnyOfCharsGo, hg]
    | some pc =>
      obtain ⟨hlt, _⟩ := getNextChar_some hg
      rw [drop_position_cons hg, List.takeWhile_cons]
      by_cases hc : set.contains pc.char
      · simp only [skipAnyOfCharsGo, hg, hc, if_true]
        rw [ih (skipNextChar st) (by rw [skipNextChar_eq_of_lt hlt]; simp; omega)]
        rw [skipNextChar_eq_of_lt hlt]
        simp only [List.length_cons]
        have hp : st.position + 1 + ((st.chars.drop (st.position + 1)).takeWhile
            (fun pc => set.contains pc.char)).length =
            st.position + (((st.chars.drop (st.position + 1)).takeWhile
            (fun pc => set.contains pc.char)).length + 1) := by omega
        rw [hp]
      · have hcb : set.contains pc.char = false := by
          simpa using hc
        simp only [skipAnyOfCharsGo, hg, hcb, Bool.false_eq_true, if_false]
        simp

/-- Full description of `skip_any_of_chars`: it advances past the longest
prefix of characters from the set. -/
theorem skipAnyOfChars_eq (set : List Char) (m : Nat) (st : ParseInput)
    (h : st.chars.length - st.position ≤ m) :
    skipAnyOfChars st set =
      { st with position := st.position +
          ((st.chars.drop st.position).takeWhile (fun pc => set.contains pc.char)).length } := by
  unfold skipAnyOfChars
  exact skipAnyOfCharsGo_eq set _ st le_rfl

theorem char_toString (c : Char) : c.toString = String.mk [c] := rfl

theorem mk_append (a b : List Char) : String.mk a ++ String.mk b = String.mk (a ++ b) := rfl

theorem popUntilCharGo_eq (stop : Char) : ∀ (m : Nat) (st : ParseInput),
    st.chars.length - st.position ≤ m →
    popUntilCharGo stop m st =
      (String.mk (((st.chars.drop st.position).takeWhile
          (fun pc => decide (pc.char ≠ stop))).map (fun pc => pc.char)),
       { st with position := st.position +
          ((st.chars.drop st.position).takeWhile (fun pc => decide (pc.char ≠ stop))).length }) := by
  intro m
  induction m with
  | zero =>
    intro st h
    have hge : st.chars.length ≤ st.position := by omega
    rw [List.drop_eq_nil_of_le hge]
    simp [popUntilCharGo]
  | succ n ih =>
    intro st h
    cases hg : getNextChar st with
    | none =>
      have hge := getNextChar_none hg
      rw [List.drop_eq_nil_of_le hge]
      simp [popUntilCharGo, hg]
    | some pc =>
      obtain ⟨hlt, _⟩ := getNextChar_some hg
      rw [drop_position_cons hg, List.takeWhile_cons]
      by_cases hc : pc.char = stop
      · have hd : (decide (pc.char ≠ stop)) = false := by simp [hc]
        simp only [popUntilCharGo, hg, hc, if_true, hd, Bool.false_eq_true, if_false]
        simp
      · have hd : (decide (pc.char ≠ stop)) = true := by simp [hc]
        simp only [popUntilCharGo, hg, if_neg hc, hd, if_true]
        rw [ih (skipNextChar st) (by rw [skipNextChar_eq_of_lt hlt]; simp; omega)]
        rw [skipNextChar_eq_of_lt hlt]
        simp only [List.map_cons, List.length_cons]
        refine Prod.ext ?_ ?_
        · show pc.char.toString ++ _ = _
          rw [char_toString, mk_append]
          rfl
        · show ({ st with position := st.position + 1 + _ } : ParseInput) = _
          have hp : st.position + 1 + ((st.chars.drop (st.position + 1)).takeWhile
              (fun pc => decide (pc.char ≠ stop))).length =
              st.position + (((st.chars.drop (st.position + 1)).takeWhile
              (fun pc => decide (pc.char ≠ stop))).length + 1) := by omega
          rw [hp]

/-- Full description of `pop_until_char`: it pops and returns the longest
prefix free of the stop character, leaving the cursor on the stop
character (or at the end). -/
theorem popUntilChar_eq (stop : Char) (st : ParseInput) :
    popUntilChar st stop =
      (String.mk (((st.chars.drop st.position).takeWhile
          (fun pc => decide (pc.char ≠ stop))).map (fun pc => pc.char)),
       { st with position := st.position +
          ((st.chars.drop st.position).takeWhile (fun pc => decide (pc.char ≠ stop))).length }) := by
  unfold popUntilChar
  exact popUntilCharGo_eq stop _ st le_rfl

/-! Facts about cursor construction (`ParseInput::new`). -/

theorem map_char_numberLine (l : List Char) : ∀ (line col : Nat),
    (numberLine line col l).map (fun pc => pc.char) = l := by
  induction l with
  | nil => intro line col; rfl
  | cons c rest ih =>
    intro line col
    simp [numberLine, ih]

theorem map_char_buildChars : ∀ (ll : List (List Char)) (line : Nat),
    (buildChars line ll).map (fun pc => pc.char) = ll.flatten := by
  intro ll
  induction ll with
  | nil => intro line; rfl
  | cons l ls ih =>
    intro line
    simp [buildChars, map_char_numberLine, ih]

theorem linesOf_ne_nil : ∀ cs : List Char, linesOf cs ≠ [] := by
  intro cs
  cases cs with
  | nil => simp [linesOf]
  | cons c rest =>
    simp only [linesOf]
    split
    · simp
    · split <;> simp

theorem join_linesOf : ∀ cs : List Char,
    (linesOf cs).flatten = cs.filter (fun c => decide (c ≠ '\n')) := by
  intro cs
  induction cs with
  | nil => rfl
  | cons c rest ih =>
    simp only [linesOf]
    by_cases hc : c = '\n'
    · rw [if_pos hc]
      simp only [List.flatten_cons, List.nil_append, ih]
      rw [List.filter_cons]
      have : (decide (c ≠ '\n')) = false := by simp [hc]
      rw [this]
      simp
    · rw [if_neg hc]
      cases hr : linesOf rest with
      | nil => exact absurd hr (linesOf_ne_nil rest)
      | cons l ls =>
        rw [hr] at ih
        simp only [List.flatten_cons] at ih
        simp only [List.flatten_cons, List.cons_append, ih]
        rw [List.filter_cons]
        have : (decide (c ≠ '\n')) = true := by simp [hc]
        rw [this]
        simp

theorem new_chars_map (t : String) :
    ((ParseInput.new t).chars.map (fun pc => pc.char)) =
      t.toList.filter (fun c => decide (c ≠ '\n')) := by
  show (buildChars 1 (linesOf t.toList)).map (fun pc => pc.char) = _
  rw [map_char_buildChars, join_linesOf]

theorem numberLine_length (l : List Char) : ∀ (line col : Nat),
    (numberLine line col l).length = l.length := by
  induction l with
  | nil => intro line col; rfl
  | cons c rest ih =>
    intro line col
    simp [numberLine, ih]

theorem linesOf_single {cs : List Char} (h : ∀ c ∈ cs, c ≠ '\n') :
    linesOf cs = [cs] := by
  induction cs with
  | nil => rfl
  | cons c rest ih =>
    have hc : c ≠ '\n' := h c (by simp)
    simp only [linesOf, if_neg hc]
    rw [ih (fun x hx => h x (by simp [hx]))]

theorem new_no_newline {ds : List Char} (h : ∀ c ∈ ds, c ≠ '\n') :
    ParseInput.new (String.mk ds) = ⟨0, numberLine 1 1 ds⟩ := by
  unfold ParseInput.new
  have ht : (String.mk ds).toList = ds := rfl
  rw [ht, linesOf_single h]
  show (⟨0, numberLine 1 1 ds ++ buildChars 2 []⟩ : ParseInput) = _
  rw [show buildChars 2 [] = [] from rfl, List.append_nil]

/-- The first decoded character of a nonempty text that does not start
with a newline sits at line 1, column 1. -/
theorem new_head {c : Char} {cs : List Char} (hc : c ≠ '\n') :
    ∃ rest, (ParseInput.new (String.mk (c :: cs))).chars = ⟨c, 1, 1⟩ :: rest := by
  show ∃ rest, buildChars 1 (linesOf (c :: cs)) = _ :: rest
  simp only [linesOf, if_neg hc]
  cases hr : linesOf cs with
  | nil => exact absurd hr (linesOf_ne_nil cs)
  | cons l ls =>
    exact ⟨numberLine 1 2 l ++ buildChars 2 ls, rfl⟩

theorem takeWhile_all_of {α} {q : α → Bool} : ∀ {l : List α},
    (∀ x ∈ l, q x = true) → l.takeWhile q = l := by
  intro l
  induction l with
  | nil => intro h; rfl
  | cons a t ih =>
    intro h
    rw [List.takeWhile_cons, h a (by simp), if_pos rfl]
    rw [ih (fun x hx => h x (by simp [hx]))]

theorem takeWhile_append_of_all {α} {q : α → Bool} : ∀ {l1 l2 : List α},
    (∀ x ∈ l1, q x = true) → (l1 ++ l2).takeWhile q = l1 ++ l2.takeWhile q := by
  intro l1
  induction l1 with
  | nil => intro l2 h; simp
  | cons a t ih =>
    intro l2 h
    rw [List.cons_append, List.takeWhile_cons, h a (by simp), if_pos rfl]
    rw [ih (fun x hx => h x (by simp [hx]))]
    rfl

/-! Forward evaluation lemmas for the conditional pops. -/

theorem popPred_of_some {st : ParseInput} {p : ParsedChar → Except String ParsedChar}
    {pc : ParsedChar} (hg : getNextChar st = some pc) :
    popNextCharPredicate st p =
      (match p pc with
       | .ok c => (.ok c, skipNextChar st)
       | .error e => (.error e, st)) := by
  unfold popNextCharPredicate
  rw [hg]

theorem popIf_of_true {st : ParseInput} {q : ParsedChar → Bool} {emsg : ParsedChar → String}
    {pc : ParsedChar} (hg : getNextChar st = some pc) (hq : q pc = true) :
    popNextCharPredicate st (fun pc => if q pc then .ok pc else .error (emsg pc)) =
      (.ok pc, skipNextChar st) := by
  rw [popPred_of_some hg]
  rw [if_pos hq]

theorem popIf_of_false {st : ParseInput} {q : ParsedChar → Bool} {emsg : ParsedChar → String}
    {pc : ParsedChar} (hg : getNextChar st = some pc) (hq : q pc = false) :
    popNextCharPredicate st (fun pc => if q pc then .ok pc else .error (emsg pc)) =
      (.error (emsg pc), st) := by
  rw [popPred_of_some hg]
  rw [if_neg (by simp [hq])]

theorem popIf_of_none {st : ParseInput} {q : ParsedChar → Bool} {emsg : ParsedChar → String}
    (hg : getNextChar st = none) :
    popNextCharPredicate st (fun pc => if q pc then .ok pc else .error (emsg pc)) =
      (.error "Expected character, but found end of parser input", st) := by
  unfold popNextCharPredicate
  rw [hg]

theorem popChar_of_some {st : ParseInput} {ch : Char} {pc : ParsedChar}
    (hg : getNextChar st = some pc) :
    popChar st ch =
      if pc.char = ch then (.ok pc, skipNextChar st)
      else (.error (expectedFoundMsg ch pc), st) := by
  unfold popChar
  rw [hg]

theorem popChar_of_match {st : ParseInput} {ch : Char} {pc : ParsedChar}
    (hg : getNextChar st = some pc) (hc : pc.char = ch) :
    popChar st ch = (.ok pc, skipNextChar st) := by
  rw [popChar_of_some hg, if_pos hc]

theorem popChar_of_mismatch {st : ParseInput} {ch : Char} {pc : ParsedChar}
    (hg : getNextChar st = some pc) (hc : pc.char ≠ ch) :
    popChar st ch = (.error (expectedFoundMsg ch pc), st) := by
  rw [popChar_of_some hg, if_neg hc]

theorem popChar_of_none {st : ParseInput} {ch : Char} (hg : getNextChar st = none) :
    popChar st ch = (.error (expectedEndMsg ch), st) := by
  unfold popChar
  rw [hg]

theorem skipChar_of_some {st : ParseInput} {ch : Char} {pc : ParsedChar}
    (hg : getNextChar st = some pc) :
    skipChar st ch =
      if pc.char = ch then (.ok (), skipNextChar st)
      else (.error (expectedFoundMsg ch pc), st) := by
  unfold skipChar
  rw [hg]

theorem skipChar_of_match {st : ParseInput} {ch : Char} {pc : ParsedChar}
    (hg : getNextChar st = some pc) (hc : pc.char = ch) :
    skipChar st ch = (.ok (), skipNextChar st) := by
  rw [skipChar_of_some hg, if_pos hc]

theorem skipChar_of_mismatch {st : ParseInput} {ch : Char} {pc : ParsedChar}
    (hg : getNextChar st = some pc) (hc : pc.char ≠ ch) :
    skipChar st ch = (.error (expectedFoundMsg ch pc), st) := by
  rw [skipChar_of_some hg, if_neg hc]

theorem skipChar_of_none {st : ParseInput} {ch : Char} (hg : getNextChar st = none) :
    skipChar st ch = (.error (expectedEndMsg ch), st) := by
  unfold skipChar
  rw [hg]

theorem getNextCharResult_of_some {st : ParseInput} {pc : ParsedChar}
    (hg : getNextChar st = some pc) : getNextCharResult st = .ok pc := by
  unfold getNextCharResult
  rw [hg]

theorem getNextCharResult_of_none {st : ParseInput} (hg : getNextChar st = none) :
    getNextCharResult st = .error "Expected character, but found end of parser input" := by
  unfold getNextCharResult
  rw [hg]

theorem popNumerical_of_true {st : ParseInput} {pc : ParsedChar}
    (hg : getNextChar st = some pc) (hq : rustIsNumeric pc.char = true) :
    popNextCharNumerical st = (.ok pc, skipNextChar st) := by
  simp only [popNextCharNumerical]
  exact popIf_of_true hg hq

theorem popNumerical_of_false {st : ParseInput} {pc : ParsedChar}
    (hg : getNextChar st = some pc) (hq : rustIsNumeric pc.char = false) :
    popNextCharNumerical st =
      (.error ("Expected numerical character at " ++ displayLocation pc
        ++ ", but found " ++ pc.char.toString), st) := by
  simp only [popNextCharNumerical]
  exact popIf_of_false hg hq

theorem popNumerical_of_none {st : ParseInput} (hg : getNextChar st = none) :
    popNextCharNumerical st =
      (.error "Expected character, but found end of parser input", st) := by
  simp only [popNextCharNumerical]
  exact popIf_of_none hg

theorem popAlphabetical_of_true {st : ParseInput} {pc : ParsedChar}
    (hg : getNextChar st = some pc) (hq : rustIsAlphabetic pc.char = true) :
    popNextCharAlphabetical st = (.ok pc, skipNextChar st) := by
  simp only [popNextCharAlphabetical]
  exact popIf_of_true hg hq

theorem popAlphabetical_of_false {st : ParseInput} {pc : ParsedChar}
    (hg : getNextChar st = some pc) (hq : rustIsAlphabetic pc.char = false) :
    popNextCharAlphabetical st =
      (.error ("Expected alphabetical character at " ++ displayLocation pc
        ++ ", but found " ++ pc.char.toString), st) := by
  simp only [popNextCharAlphabetical]
  exact popIf_of_false hg hq

theorem popAlphabetical_of_none {st : ParseInput} (hg : getNextChar st = none) :
    popNextCharAlphabetical st =
      (.error "Expected character, but found end of parser input", st) := by
  simp only [popNextCharAlphabetical]
  exact popIf_of_none hg

/-! The AST of `main.rs` and the grammar rules built on the cursor. -/

/-- From `main.rs`: `ASTLocation { line, column }` (`u32` as `Nat`). -/
structure ASTLocation where
  line : Nat
  column : Nat
deriving DecidableEq, Repr

mutual

/-- From `main.rs`: the `ASTExpression` tagged union (`i64` as `Int`). -/
inductive ASTExpression where
  | ASTVariableRef (name : String)
  | ASTInteger (value : Int)
  | ASTString (value : String)
  | ASTAssignment (name : String) (value : ASTNode)
  | ASTInitialization (name : String) (value : ASTNode)
  | ASTScope (children : List ASTNode)
  | ASTParentheses (children : List ASTNode)
  | ASTFunction (parameters : ASTNode) (body : ASTNode)
  | ASTUnit

/-- From `main.rs`: `ASTNode { expression, location }`. -/
inductive ASTNode where
  | mk (expression : ASTExpression) (location : ASTLocation)

end

/-- Numeric value of an ASCII digit string. -/
def digitsVal (ds : List Char) : Nat :=
  ds.foldl (fun a c => a * 10 + (c.toNat - 48)) 0

/-- Digit-and-range part of Rust `str::parse::<i64>` after the optional
sign; the overflow boundary is the `i64` range. -/
def strParseI64Core (neg : Bool) (ds : List Char) : Except String Int :=
  if ds.isEmpty then .error "invalid digit found in string"
  else if ds.all (fun d => d.isDigit) then
    if neg then
      if digitsVal ds ≤ 2 ^ 63 then .ok (-(digitsVal ds : Int))
      else .error "number too small to fit in target type"
    else
      if digitsVal ds ≤ 2 ^ 63 - 1 then .ok (digitsVal ds : Int)
      else .error "number too large to fit in target type"
  else .error "invalid digit found in string"

/-- Model of Rust `str::parse::<i64>` including its error strings. -/
def strParseI64 (s : String) : Except String Int :=
  match s.toList with
  | [] => .error "cannot parse integer from empty string"
  | c :: rest =>
    if c = '-' then strParseI64Core true rest
    else if c = '+' then strParseI64Core false rest
    else strParseI64Core false (c :: rest)

/-- Result of one grammar rule: `Result<ASTNode, String>` plus the cursor
it leaves behind. -/
abbrev PRes := Except String ASTNode × ParseInput

/-- Body of the `parse_integer` collection loop, with the iteration
budget (see `skipAnyOfCharsGo`). -/
def parseIntegerLoopGo : Nat → ParseInput → String × ParseInput
  | 0, st => ("", st)
  | n + 1, st =>
    match popNextCharNumerical st with
    | (.ok c, st') =>
      let r := parseIntegerLoopGo n st'
      (c.char.toString ++ r.1, r.2)
    | (.error _, _) => ("", st)

/-- Collection loop of `parse_integer` (`while let Ok(next_char) = input.pop_next_char_numerical()`). -/
def parseIntegerLoop (st : ParseInput) : String × ParseInput :=
  parseIntegerLoopGo (st.chars.length - st.position) st

/-- From `main.rs` `parse_integer`. -/
def parseInteger (st : ParseInput) : PRes :=
  match popNextCharNumerical st with
  | (.error e, st1) => (.error e, st1)
  | (.ok firstChar, st1) =>
    let r := parseIntegerLoop st1
    let output := firstChar.char.toString ++ r.1
    match strParseI64 output with
    | .ok v =>
      (.ok (.mk (.ASTInteger v) ⟨firstChar.line, firstChar.column⟩), r.2)
    | .error e => (.error e, r.2)

/-- From `main.rs` `parse_string_literal`. -/
def parseStringLiteral (st : ParseInput) : PRes :=
  match popChar st dquote with
  | (.error e, st1) => (.error e, st1)
  | (.ok firstChar, st1) =>
    let r := popUntilChar st1 dquote
    match skipChar r.2 dquote with
    | (.error e, st3) => (.error e, st3)
    | (.ok _, st3) =>
      (.ok (.mk (.ASTString r.1) ⟨firstChar.line, firstChar.column⟩), st3)

/-- Body of the identifier collection loop, with the iteration budget
(see `skipAnyOfCharsGo`). -/
def parseNameLoopGo : Nat → ParseInput → String × ParseInput
  | 0, st => ("", st)
  | n + 1, st =>
    match popNextCharAlphabeticalOrInGroup st ['_', '-'] with
    | (.ok c, st') =>
      let r := parseNameLoopGo n st'
      (c.char.toString ++ r.1, r.2)
    | (.error _, _) => ("", st)

/-- Collection loop shared by `parse_name` and `parse_variable_ref`
(`while let Ok(next_char) = input.pop_next_char_alphabetical_or_in_group(...)`). -/
def parseNameLoop (st : ParseInput) : String × ParseInput :=
  parseNameLoopGo (st.chars.length - st.position) st

/-- From `main.rs` `parse_name`. -/
def parseName (st : ParseInput) : Except String String × ParseInput :=
  match popNextCharAlphabetical st with
  | (.error e, st1) => (.error e, st1)
  | (.ok firstChar, st1) =>
    let r := parseNameLoop st1
    (.ok (firstChar.char.toString ++ r.1), r.2)

/-- From `main.rs` `parse_variable_ref`. -/
def parseVariableRef (st : ParseInput) : PRes :=
  match popNextCharAlphabetical st with
  | (.error e, st1) => (.error e, st1)
  | (.ok firstChar, st1) =>
    let r := parseNameLoop st1
    (.ok (.mk (.ASTVariableRef (firstChar.char.toString ++ r.1))
      ⟨firstChar.line, firstChar.column⟩), r.2)

/-- Interior loop shared by `parse_scope_with_parser` and
`parse_parentheses_with_parser` in `main.rs` (the two closures are
textually identical up to the closing delimiter and the node
constructor).  The Rust `loop` has no fuel; each successful interior
parse consumes at least one character, so the iteration count is bounded
by the remaining input and the callers pass one more than that, making
the `0` branch unreachable (established in the invariant lemmas). -/
def encloseFinish (closeC : Char) (build : List ASTNode → ASTExpression)
    (startChar : ParsedChar) (e : String) (acc : List ASTNode)
    (st2 : ParseInput) : PRes :=
  match skipChar st2 closeC with
  | (.ok _, st3) =>
    (.ok (.mk (build acc) ⟨startChar.line, startChar.column⟩), st3)
  | (.error _, st3) => (.error e, st3)

def encloseLoopF (interior : ParseInput → PRes) (closeC : Char)
    (build : List ASTNode → ASTExpression) (startChar : ParsedChar) :
    Nat → ParseInput → List ASTNode → PRes
  | 0, st, _ => (.error "", st)
  | m + 1, st, acc =>
    let st1 := skipSpacesAndNewlines st
    match interior st1 with
    | (.ok x, st2) => encloseLoopF interior closeC build startChar m st2 (acc ++ [x])
    | (.error e, st2) => encloseFinish closeC build startChar e acc st2

/-- From `main.rs` `parse_scope_with_parser`. -/
def parseScopeWith (interior : ParseInput → PRes) (st : ParseInput) : PRes :=
  match popChar st obrace with
  | (.error e, st1) => (.error e, st1)
  | (.ok startChar, st1) =>
    encloseLoopF interior cbrace .ASTScope startChar
      (st1.chars.length + 1 - st1.position) st1 []

/-- From `main.rs` `parse_parentheses_with_parser`. -/
def parseParenthesesWith (interior : ParseInput → PRes) (st : ParseInput) : PRes :=
  match popChar st oparen with
  | (.error e, st1) => (.error e, st1)
  | (.ok firstChar, st1) =>
    encloseLoopF interior cparen .ASTParentheses firstChar
      (st1.chars.length + 1 - st1.position) st1 []

/-- Tail of `parse_assignment_with_parser` after the keyword handling:
identifier, `=`, then the value expression via the interior parser.  The
`none` case models the `first_char.unwrap()` panic; it is unreachable
because both paths that get here put a character into `first_char`. -/
def parseAssignmentMake (initialization : Bool) (firstChar : Option ParsedChar)
    (variableName : String) (variableValue : ASTNode) (st7 : ParseInput) : PRes :=
  match firstChar with
  | some fc =>
    if initialization then
      (.ok (.mk (.ASTInitialization variableName variableValue)
        ⟨fc.line, fc.column⟩), st7)
    else
      (.ok (.mk (.ASTAssignment variableName variableValue)
        ⟨fc.line, fc.column⟩), st7)
  | none => (.error "panicked at unwrap of None", st7)

def parseAssignmentAfterEq (interior : ParseInput → PRes) (initialization : Bool)
    (firstChar : Option ParsedChar) (variableName : String) (st5 : ParseInput) : PRes :=
  let st6 := skipSpacesAndNewlines st5
  match interior st6 with
  | (.error e, st7) => (.error e, st7)
  | (.ok variableValue, st7) =>
    parseAssignmentMake initialization firstChar variableName variableValue st7

def parseAssignmentAfterName (interior : ParseInput → PRes) (initialization : Bool)
    (firstChar : Option ParsedChar) (variableName : String) (st3 : ParseInput) : PRes :=
  let st4 := skipSpacesAndNewlines st3
  match skipChar st4 '=' with
  | (.error e, st5) => (.error e, st5)
  | (.ok _, st5) =>
    parseAssignmentAfterEq interior initialization firstChar variableName st5

def parseAssignmentFinish (interior : ParseInput → PRes) (initialization : Bool)
    (firstChar : Option ParsedChar) (st2 : ParseInput) : PRes :=
  match parseName st2 with
  | (.error e, st3) => (.error e, st3)
  | (.ok variableName, st3) =>
    parseAssignmentAfterName interior initialization firstChar variableName st3

/-- From `main.rs` `parse_assignment_with_parser`. -/
def parseAssignmentNoKeyword (interior : ParseInput → PRes) (st2 : ParseInput) : PRes :=
  match getNextCharResult st2 with
  | .error e => (.error e, st2)
  | .ok pc => parseAssignmentFinish interior false (some pc) st2

def parseAssignmentWith (interior : ParseInput → PRes) (st : ParseInput) : PRes :=
  let initialization := matchWord st "let"
  let firstChar0 : Option ParsedChar := if initialization then getNextChar st else none
  let st1 := (skipString st "let").2
  let st2 := skipSpacesAndNewlines st1
  if initialization then
    parseAssignmentFinish interior true firstChar0 st2
  else
    parseAssignmentNoKeyword interior st2

/-- From `main.rs` `parse_function_with_parser`: a parenthesised
parameter list followed by a braced body. -/
def parseFunctionAfterParams (interior : ParseInput → PRes)
    (firstChar : ParsedChar) (parameters : ASTNode) (st1 : ParseInput) : PRes :=
  let st2 := skipSpacesAndNewlines st1
  match parseScopeWith interior st2 with
  | (.error e, st3) => (.error e, st3)
  | (.ok body, st3) =>
    (.ok (.mk (.ASTFunction parameters body)
      ⟨firstChar.line, firstChar.column⟩), st3)

def parseFunctionAfterFirst (interior : ParseInput → PRes)
    (firstChar : ParsedChar) (st : ParseInput) : PRes :=
  match parseParenthesesWith interior st with
  | (.error e, st1) => (.error e, st1)
  | (.ok parameters, st1) =>
    parseFunctionAfterParams interior firstChar parameters st1

def parseFunctionWith (interior : ParseInput → PRes) (st : ParseInput) : PRes :=
  match getNextCharResult st with
  | .error e => (.error e, st)
  | .ok firstChar => parseFunctionAfterFirst interior firstChar st

/-- Loop body of `try_parsers_with_list`: `savePoint` is the entry
position, `lastErr` the most recent failure message (initially the empty
string). -/
def tryParsersGo (savePoint : Nat) : List (ParseInput → PRes) → ParseInput → String → PRes
  | [], st, lastErr => (.error lastErr, st)
  | p :: rest, st, lastErr =>
    let st1 := skipSpacesAndNewlines st
    match p st1 with
    | (.ok x, st2) => (.ok x, st2)
    | (.error e, st2) => tryParsersGo savePoint rest (loadSavePoint st2 savePoint) e

/-- From `main.rs` `try_parsers_with_list`.  The `Rc<RefCell<...>>` rule
list is only mutated during assembly in `main`, before the first parse,
so it is modelled as a plain list argument. -/
def tryParsersWithList (parsers : List (ParseInput → PRes)) (st : ParseInput) : PRes :=
  tryParsersGo (createSavePoint st) parsers st ""

/-- The recursive `main_parser` of `main.rs`, with the rule list in its
assembled order: the initial vector `[string literal, integer, variable
ref]` gets scope and parentheses pushed at the back and function and
assignment inserted at positions 0 and 1, giving `[function, assignment,
string literal, integer, variable ref, scope, parentheses]`.  The
`Box::leak` recursion knot is modelled by a fuel parameter; every
composite rule consumes at least one character before re-entering the
main parser, so any fuel exceeding the remaining character count behaves
like the Rust recursion and the `0` branch is unreachable. -/
def mainParserF : Nat → ParseInput → PRes
  | 0, st => (.error "", st)
  | n + 1, st =>
    tryParsersWithList
      [parseFunctionWith (mainParserF n), parseAssignmentWith (mainParserF n),
       parseStringLiteral, parseInteger, parseVariableRef,
       parseScopeWith (mainParserF n), parseParenthesesWith (mainParserF n)] st

/-- The assembled rule list of `main`, at a given recursion depth of the
main parser. -/
def mainParsers (n : Nat) : List (ParseInput → PRes) :=
  [parseFunctionWith (mainParserF n), parseAssignmentWith (mainParserF n),
   parseStringLiteral, parseInteger, parseVariableRef,
   parseScopeWith (mainParserF n), parseParenthesesWith (mainParserF n)]

/-- The driver loop in `main`: stop cleanly once `finished`, otherwise
run the main parser, collecting nodes until the first error (which is
printed and stops the loop).  Each success consumes at least one
character, so `chars.length + 1` iterations always suffice. -/
def driverLoopF : Nat → ParseInput → List ASTNode × Option String
  | 0, _ => ([], none)
  | n + 1, st =>
    if finished st then ([], none)
    else
      match mainParserF (st.chars.length + 1) st with
      | (.ok node, st1) =>
        let r := driverLoopF n st1
        (node :: r.1, r.2)
      | (.error e, _) => ([], some e)

/-- End-to-end parse of one source text, as `main` runs it after reading
the file: the collected top-level nodes plus the terminating error, if
any. -/
def parseProgram (text : String) : List ASTNode × Option String :=
  driverLoopF ((ParseInput.new text).chars.length + 1) (ParseInput.new text)

/-! The nom prototype (`ast.rs`, `ast_parsers.rs`, `parse_numbers.rs`,
`parse_identifiers.rs`): a shallow model of the nom combinators actually
used, over `List Char` inputs.  `Err::Error` and `Err::Incomplete` are
the `err`/`incomplete` results (no rule here uses `Failure`); `alt`
moves on after `Error` and returns `Incomplete` as is; the `many`-style
loops carry nom's no-consumption guards and a structural fuel in place
of the unbounded Rust loops (every continuing iteration consumes, so
`length + 1` iterations are always enough). -/

namespace Nom

inductive NRes (α : Type) where
  | ok (rem : List Char) (val : α)
  | err
  | incomplete

abbrev NP (α : Type) : Type := List Char → NRes α

variable {α β : Type}

/-- `nom::character::complete::char`. -/
def charC (c : Char) : NP Char := fun inp =>
  match inp with
  | [] => .err
  | x :: rest => if x = c then .ok rest x else .err

/-- `nom::character::complete::one_of`. -/
def oneOf (s : List Char) : NP Char := fun inp =>
  match inp with
  | [] => .err
  | x :: rest => if s.contains x then .ok rest x else .err

/-- `nom::bytes::streaming::tag`: incomplete when the input is a proper
matching prefix of the tag. -/
def tagStreaming (t : List Char) : NP (List Char) := fun inp =>
  if t.isPrefixOf inp then .ok (inp.drop t.length) t
  else if inp.isPrefixOf t then .incomplete
  else .err

/-- `nom::bytes::complete::tag`. -/
def tagC (t : List Char) : NP (List Char) := fun inp =>
  if t.isPrefixOf inp then .ok (inp.drop t.length) t else .err

/-- Complete `take_while1` on a character class. -/
def takeWhile1C (q : Char → Bool) : NP (List Char) := fun inp =>
  let pre := inp.takeWhile q
  if pre.isEmpty then .err else .ok (inp.drop pre.length) pre

/-- `alpha1` (complete): ASCII letters. -/
def alpha1 : NP (List Char) := takeWhile1C (fun c => c.isAlpha)

/-- `alphanumeric1` (complete): ASCII letters and digits. -/
def alphanumeric1 : NP (List Char) := takeWhile1C (fun c => c.isAlphanum)

/-- `space1` (complete): spaces and tabs, at least one. -/
def space1 : NP (List Char) := takeWhile1C (fun c => c == ' ' || c == Char.ofNat 9)

/-- `multispace0` (complete): spaces, tabs, carriage returns, newlines. -/
def multispace0 : NP (List Char) := fun inp =>
  let pre := inp.takeWhile (fun c =>
    c == ' ' || c == Char.ofNat 9 || c == Char.ofNat 13 || c == Char.ofNat 10)
  .ok (inp.drop pre.length) pre

/-- `nom::combinator::opt`. -/
def optC (p : NP α) : NP (Option α) := fun inp =>
  match p inp with
  | .ok rem v => .ok rem (some v)
  | .err => .ok inp none
  | .incomplete => .incomplete

/-- `nom::combinator::map`. -/
def mapC (p : NP α) (f : α → β) : NP β := fun inp =>
  match p inp with
  | .ok rem v => .ok rem (f v)
  | .err => .err
  | .incomplete => .incomplete

/-- Sequencing that feeds the first result into the continuation, the
shape shared by `tuple`, `pair`, `preceded`, `terminated`, `delimited`. -/
def bindC (p : NP α) (f : α → NP β) : NP β := fun inp =>
  match p inp with
  | .ok rem v => f v rem
  | .err => .err
  | .incomplete => .incomplete

def pairC (p : NP α) (q : NP β) : NP (α × β) :=
  bindC p (fun v => mapC q (fun w => (v, w)))

def precededC (p : NP α) (q : NP β) : NP β :=
  bindC p (fun _ => q)

def terminatedC (p : NP α) (q : NP β) : NP α :=
  bindC p (fun v => mapC q (fun _ => v))

def delimitedC (p : NP α) (q : NP β) (r : NP α) : NP β :=
  precededC p (terminatedC q r)

/-- `nom::combinator::recognize`: the consumed prefix. -/
def recognizeC (p : NP α) : NP (List Char) := fun inp =>
  match p inp with
  | .ok rem _ => .ok rem (inp.take (inp.length - rem.length))
  | .err => .err
  | .incomplete => .incomplete

/-- `nom::branch::alt` over a rule list: moves on after `Error`,
returns the last error (collapsed to `err`) when all fail. -/
def altC : List (NP α) → NP α
  | [] => fun _ => .err
  | p :: rest => fun inp =>
    match p inp with
    | .ok rem v => .ok rem v
    | .incomplete => .incomplete
    | .err => altC rest inp

/-- Loop of `many0`, with nom's no-consumption error. -/
def many0Go (p : NP α) : Nat → NP (List α)
  | 0, _ => .err
  | fuel + 1, inp =>
    match p inp with
    | .err => .ok inp []
    | .incomplete => .incomplete
    | .ok rem v =>
      if rem.length = inp.length then .err
      else
        match many0Go p fuel rem with
        | .ok rem2 vs => .ok rem2 (v :: vs)
        | .err => .err
        | .incomplete => .incomplete

def many0C (p : NP α) : NP (List α) := fun inp => many0Go p (inp.length + 1) inp

def many1C (p : NP α) : NP (List α) :=
  bindC p (fun v => mapC (many0C p) (fun vs => v :: vs))

def many0CountC (p : NP α) : NP Nat := mapC (many0C p) List.length

/-- Loop of `separated_list1` after the first element: nom returns to
the pre-separator input when the separator or the element fails, and
errors when the separator consumes nothing. -/
def separatedList1Go (sep : NP α) (p : NP β) : Nat → NP (List β)
  | 0, _ => .err
  | fuel + 1, inp =>
    match sep inp with
    | .err => .ok inp []
    | .incomplete => .incomplete
    | .ok rem1 _ =>
      if rem1.length = inp.length then .err
      else
        match p rem1 with
        | .err => .ok inp []
        | .incomplete => .incomplete
        | .ok rem2 v =>
          match separatedList1Go sep p fuel rem2 with
          | .ok rem3 vs => .ok rem3 (v :: vs)
          | .err => .err
          | .incomplete => .incomplete

def separatedLoop (sep : NP α) (p : NP β) : NP (List β) := fun inp =>
  separatedList1Go sep p (inp.length + 1) inp

def separatedList1C (sep : NP α) (p : NP β) : NP (List β) :=
  bindC p (fun v => mapC (separatedLoop sep p) (fun vs => v :: vs))

/-- From `ast.rs`: the prototype `AST` enum.  The `Float` payload keeps
the recognised source text (the prototype stores the `f64` obtained by
`str::parse::<f64>(..).unwrap()`; no claim touches float values). -/
inductive NAst where
  | VariableRef (name : String)
  | Integer (value : Int)
  | Float (text : String)
  | String (value : String)
  | Assignment (name : String) (value : NAst)
  | Scope (children : List NAst)
  | Parentheses (children : List NAst)
  | Function (param : String) (body : NAst)

/-- From `parse_identifiers.rs` `identifier`. -/
def identifier : NP (List Char) :=
  recognizeC (pairC
    (altC [alpha1, tagC ['_'], tagC ['+'], tagC [Char.ofNat 45], tagC [Char.ofNat 36]])
    (many0CountC
      (altC [alphanumeric1, tagC ['_'], tagC ['+'], tagC [Char.ofNat 45],
        tagC [Char.ofNat 36]])))

/-- From `parse_numbers.rs` `decimal`. -/
def decimal : NP (List Char) :=
  recognizeC (many1C (terminatedC (oneOf "0123456789".toList) (many0C (charC '_'))))

/-- From `parse_numbers.rs` `integer`. -/
def integer : NP (List Char) :=
  recognizeC (pairC (optC (charC (Char.ofNat 45))) decimal)

/-- From `parse_numbers.rs` `float` (the three recognised shapes). -/
def float : NP (List Char) :=
  recognizeC (pairC (optC (charC (Char.ofNat 45)))
    (altC [
      recognizeC (pairC (charC (Char.ofNat 46)) (pairC decimal
        (optC (pairC (oneOf ['e', 'E'])
          (pairC (optC (oneOf ['+', Char.ofNat 45])) decimal))))),
      recognizeC (pairC decimal (pairC
        (optC (precededC (charC (Char.ofNat 46)) decimal))
        (pairC (oneOf ['e', 'E'])
          (pairC (optC (oneOf ['+', Char.ofNat 45])) decimal)))),
      recognizeC (pairC decimal (pairC (charC (Char.ofNat 46)) (optC decimal)))]))

/-- From `ast_parsers.rs` `parse_integer`; the `unwrap` of
`str::parse::<i64>` (reachable only through `_` separators or overflow,
outside every claim) is modelled as a failure. -/
def parseInteger : NP NAst := fun inp =>
  match integer inp with
  | .ok rem x =>
    match strParseI64 (String.mk x) with
    | .ok v => .ok rem (NAst.Integer v)
    | .error _ => .err
  | .err => .err
  | .incomplete => .incomplete

/-- From `ast_parsers.rs` `parse_float`, with the recognised text kept
as the payload. -/
def parseFloat : NP NAst := mapC float (fun x => NAst.Float (String.mk x))

/-- Modelled from the spec: the prototype's string-literal rule (its
source file `parse_strings.rs` is absent from the repository) reads a
double quote, the content characters up to the next double quote with
no escape processing, and the closing double quote, failing when the
quote is never closed. -/
def parseString : NP (List Char) := fun inp =>
  match inp with
  | [] => .err
  | c :: rest =>
    if c = dquote then
      let content := rest.takeWhile (fun x => x != dquote)
      match rest.drop content.length with
      | q :: rem2 => if q = dquote then .ok rem2 content else .err
      | [] => .err
    else .err

/-- From `ast_parsers.rs` `parse_string_literal`. -/
def parseStringLiteral : NP NAst :=
  mapC parseString (fun x => NAst.String (String.mk x))

/-- From `ast_parsers.rs` `parse_variable_ref`. -/
def parseVariableRef : NP NAst :=
  mapC identifier (fun x => NAst.VariableRef (String.mk x))

/-- From `ast_parsers.rs` `parse_scope`. -/
def parseScope (rec : NP NAst) : NP NAst :=
  mapC (delimitedC (pairC (charC obrace) multispace0)
    (many0C (delimitedC multispace0 rec multispace0))
    (pairC (charC cbrace) multispace0))
    NAst.Scope

/-- From `ast_parsers.rs` `parse_parentheses`. -/
def parseParentheses (rec : NP NAst) : NP NAst :=
  mapC (delimitedC (pairC (charC oparen) multispace0)
    (many0C (delimitedC multispace0 rec multispace0))
    (pairC (charC cparen) multispace0))
    NAst.Parentheses

/-- From `ast_parsers.rs` `parse_assignment` (streaming `tag("let")`). -/
def parseAssignment (rec : NP NAst) : NP NAst :=
  bindC (tagStreaming ['l', 'e', 't']) (fun _ =>
    bindC space1 (fun _ =>
      bindC identifier (fun ident =>
        bindC space1 (fun _ =>
          bindC (charC '=') (fun _ =>
            bindC space1 (fun _ =>
              mapC rec (fun ast => NAst.Assignment (String.mk ident) ast)))))))

/-- From `ast_parsers.rs` `parse_function`: `|`, identifiers separated
by spaces, `|`, whitespace, one body expression, then the reversed fold
into nested single-parameter functions. -/
def parseFunction (rec : NP NAst) : NP NAst :=
  bindC (charC (Char.ofNat 124)) (fun _ =>
    bindC (separatedList1C space1 identifier) (fun args =>
      bindC (charC (Char.ofNat 124)) (fun _ =>
        bindC space1 (fun _ =>
          mapC rec (fun ast =>
            (args.reverse).foldl
              (fun prevBody nextIdent =>
                NAst.Function (String.mk nextIdent) prevBody) ast)))))

/-- From `ast.rs` `AST::parse`, with the alternative order of the
source and a fuel in place of the `Box`-free Rust recursion (every
recursive entry consumes at least one character first). -/
def astParseF : Nat → NP NAst
  | 0 => fun _ => .err
  | n + 1 => fun inp =>
    altC [parseFloat, parseInteger, parseAssignment (astParseF n),
      parseFunction (astParseF n), parseScope (astParseF n),
      parseParentheses (astParseF n), parseStringLiteral, parseVariableRef] inp

/-- Parse one expression from a source string with the prototype. -/
def astParse (s : String) : NRes NAst := astParseF (s.length + 1) s.toList

end Nom

theorem parseStringLiteral_of_ok {st : ParseInput} {c : ParsedChar} {st1 : ParseInput}
    (h : popChar st dquote = (.ok c, st1)) :
    parseStringLiteral st =
      (match skipChar (popUntilChar st1 dquote).2 dquote with
       | (.error e, st3) => (.error e, st3)
       | (.ok _, st3) =>
         (.ok (.mk (.ASTString (popUntilChar st1 dquote).1) ⟨c.line, c.column⟩), st3)) := by
  unfold parseStringLiteral
  rw [h]

/-- On a buffer of the shape `"` ++ quote-free middle ++ `"`, the string
literal rule pops the middle verbatim, consumes the whole buffer, and
takes the opening quote's location. -/
theorem parseStringLiteral_decomp (pc0 pcq : ParsedChar) (mid : List ParsedChar)
    (h0 : pc0.char = dquote) (hq2 : pcq.char = dquote)
    (hmid : ∀ pc ∈ mid, pc.char ≠ dquote) :
    parseStringLiteral ⟨0, pc0 :: (mid ++ [pcq])⟩ =
      (.ok (.mk (.ASTString (String.mk (mid.map (fun pc => pc.char))))
        ⟨pc0.line, pc0.column⟩),
       ⟨mid.length + 2, pc0 :: (mid ++ [pcq])⟩) := by
  have hg0 : getNextChar ⟨0, pc0 :: (mid ++ [pcq])⟩ = some pc0 := by
    simp [getNextChar]
  have hlen : ((pc0 :: (mid ++ [pcq])) : List ParsedChar).length = mid.length + 2 := by
    simp
  have hstate : skipNextChar (⟨0, pc0 :: (mid ++ [pcq])⟩ : ParseInput) =
      ⟨1, pc0 :: (mid ++ [pcq])⟩ := by
    rw [skipNextChar_eq_of_lt (by show (0 : Nat) < _; rw [hlen]; omega)]
  have hpop := popChar_of_match hg0 h0
  rw [hstate] at hpop
  rw [parseStringLiteral_of_ok hpop]
  have hpu : popUntilChar ⟨1, pc0 :: (mid ++ [pcq])⟩ dquote =
      (String.mk (mid.map (fun pc => pc.char)), ⟨1 + mid.length, pc0 :: (mid ++ [pcq])⟩) := by
    rw [popUntilChar_eq]
    have hdrop : ((⟨1, pc0 :: (mid ++ [pcq])⟩ : ParseInput)).chars.drop
        ((⟨1, pc0 :: (mid ++ [pcq])⟩ : ParseInput)).position = mid ++ [pcq] := rfl
    rw [hdrop]
    rw [takeWhile_append_of_all (by
      intro pc hpc
      simpa using hmid pc hpc)]
    rw [show List.takeWhile (fun pc => decide (pc.char ≠ dquote)) [pcq] = [] by
      simp [List.takeWhile_cons, hq2]]
    rw [List.append_nil]
  rw [hpu]
  have hgq : getNextChar ⟨1 + mid.length, pc0 :: (mid ++ [pcq])⟩ = some pcq := by
    show ((pc0 :: (mid ++ [pcq])) : List ParsedChar)[1 + mid.length]? = some pcq
    rw [show 1 + mid.length = mid.length + 1 from by omega]
    rw [List.getElem?_cons_succ]
    rw [List.getElem?_append_right le_rfl]
    simp
  have hsk := skipChar_of_match hgq hq2
  have hstate2 : skipNextChar (⟨1 + mid.length, pc0 :: (mid ++ [pcq])⟩ : ParseInput) =
      ⟨mid.length + 2, pc0 :: (mid ++ [pcq])⟩ := by
    rw [skipNextChar_eq_of_lt (by show 1 + mid.length < _; rw [hlen]; omega)]
    show (⟨1 + mid.length + 1, _⟩ : ParseInput) = _
    rw [show 1 + mid.length + 1 = mid.length + 2 from by omega]
  rw [hstate2] at hsk
  rw [hsk]

/-! Characterizations of the conditional single-character pops. -/

theorem popIf_ok {st : ParseInput} {q : ParsedChar → Bool} {emsg : ParsedChar → String}
    {c : ParsedChar} {out : ParseInput}
    (h : popNextCharPredicate st
      (fun pc => if q pc then .ok pc else .error (emsg pc)) = (.ok c, out)) :
    getNextChar st = some c ∧ q c = true ∧ out = skipNextChar st ∧
      st.position < st.chars.length := by
  unfold popNextCharPredicate at h
  split at h
  · rename_i pc heq
    beta_reduce at h
    obtain ⟨hlt, _⟩ := getNextChar_some heq
    by_cases hq : q pc
    · rw [if_pos hq] at h
      have h' : ((Except.ok pc : Except String ParsedChar), skipNextChar st) =
          (Except.ok c, out) := h
      injection h' with h1 h2
      injection h1 with h1
      subst h1
      exact ⟨heq, hq, h2.symm, hlt⟩
    · rw [if_neg hq] at h
      have h' : ((Except.error (emsg pc) : Except String ParsedChar), st) =
          (Except.ok c, out) := h
      injection h' with h1 h2
      exact absurd h1 (by simp)
  · exact absurd h (by simp)

theorem popIf_error {st : ParseInput} {q : ParsedChar → Bool} {emsg : ParsedChar → String}
    {e : String} {out : ParseInput}
    (h : popNextCharPredicate st
      (fun pc => if q pc then .ok pc else .error (emsg pc)) = (.error e, out)) :
    out = st ∧
      ((getNextChar st = none ∧ e = "Expected character, but found end of parser input") ∨
       (∃ pc, getNextChar st = some pc ∧ q pc = false ∧ e = emsg pc)) := by
  unfold popNextCharPredicate at h
  split at h
  · rename_i pc heq
    beta_reduce at h
    by_cases hq : q pc
    · rw [if_pos hq] at h
      have h' : ((Except.ok pc : Except String ParsedChar), skipNextChar st) =
          (Except.error e, out) := h
      injection h' with h1 h2
      exact absurd h1 (by simp)
    · rw [if_neg hq] at h
      have h' : ((Except.error (emsg pc) : Except String ParsedChar), st) =
          (Except.error e, out) := h
      injection h' with h1 h2
      injection h1 with h1
      exact ⟨h2.symm, .inr ⟨pc, heq, by simpa using hq, h1.symm⟩⟩
  · rename_i heq
    injection h with h1 h2
    injection h1 with h1
    exact ⟨h2.symm, .inl ⟨heq, h1.symm⟩⟩

theorem popNumerical_ok {st : ParseInput} {c : ParsedChar} {out : ParseInput}
    (h : popNextCharNumerical st = (.ok c, out)) :
    getNextChar st = some c ∧ rustIsNumeric c.char = true ∧ out = skipNextChar st ∧
      st.position < st.chars.length := by
  simp only [popNextCharNumerical] at h
  exact popIf_ok h

theorem popNumerical_error {st : ParseInput} {e : String} {out : ParseInput}
    (h : popNextCharNumerical st = (.error e, out)) :
    out = st ∧ (getNextChar st = none ∨
      ∃ pc, getNextChar st = some pc ∧ rustIsNumeric pc.char = false) := by
  simp only [popNextCharNumerical] at h
  have h' := popIf_error h
  refine ⟨h'.1, ?_⟩
  rcases h'.2 with ⟨hn, _⟩ | ⟨pc, hs, hq, _⟩
  · exact .inl hn
  · exact .inr ⟨pc, hs, hq⟩

theorem popAlphabetical_ok {st : ParseInput} {c : ParsedChar} {out : ParseInput}
    (h : popNextCharAlphabetical st = (.ok c, out)) :
    getNextChar st = some c ∧ rustIsAlphabetic c.char = true ∧ out = skipNextChar st ∧
      st.position < st.chars.length := by
  simp only [popNextCharAlphabetical] at h
  exact popIf_ok h

theorem popAlphabetical_error {st : ParseInput} {e : String} {out : ParseInput}
    (h : popNextCharAlphabetical st = (.error e, out)) :
    out = st ∧ (getNextChar st = none ∨
      ∃ pc, getNextChar st = some pc ∧ rustIsAlphabetic pc.char = false) := by
  simp only [popNextCharAlphabetical] at h
  have h' := popIf_error h
  refine ⟨h'.1, ?_⟩
  rcases h'.2 with ⟨hn, _⟩ | ⟨pc, hs, hq, _⟩
  · exact .inl hn
  · exact .inr ⟨pc, hs, hq⟩

theorem popGroup_ok {st : ParseInput} {accepted : List Char} {c : ParsedChar} {out : ParseInput}
    (h : popNextCharAlphabeticalOrInGroup st accepted = (.ok c, out)) :
    getNextChar st = some c ∧
      (rustIsAlphabetic c.char || accepted.contains c.char) = true ∧
      out = skipNextChar st ∧ st.position < st.chars.length := by
  simp only [popNextCharAlphabeticalOrInGroup] at h
  exact popIf_ok h

theorem popGroup_error {st : ParseInput} {accepted : List Char} {e : String} {out : ParseInput}
    (h : popNextCharAlphabeticalOrInGroup st accepted = (.error e, out)) :
    out = st ∧ (getNextChar st = none ∨
      ∃ pc, getNextChar st = some pc ∧
        (rustIsAlphabetic pc.char || accepted.contains pc.char) = false) := by
  simp only [popNextCharAlphabeticalOrInGroup] at h
  have h' := popIf_error h
  refine ⟨h'.1, ?_⟩
  rcases h'.2 with ⟨hn, _⟩ | ⟨pc, hs, hq, _⟩
  · exact .inl hn
  · exact .inr ⟨pc, hs, hq⟩

theorem popChar_ok {st : ParseInput} {ch : Char} {pc : ParsedChar} {out : ParseInput}
    (h : popChar st ch = (.ok pc, out)) :
    getNextChar st = some pc ∧ pc.char = ch ∧
      out = { st with position := st.position + 1 } ∧
      st.position < st.chars.length := by
  unfold popChar at h
  split at h
  · rename_i pc' heq
    obtain ⟨hlt, _⟩ := getNextChar_some heq
    split at h
    · rename_i hc
      injection h with h1 h2
      injection h1 with h1
      subst h1
      exact ⟨heq, hc, by rw [← h2, skipNextChar_eq_of_lt hlt], hlt⟩
    · exact absurd h (by simp)
  · exact absurd h (by simp)

theorem popChar_error {st : ParseInput} {ch : Char} {e : String} {out : ParseInput}
    (h : popChar st ch = (.error e, out)) :
    out = st ∧
      ((∃ pc, getNextChar st = some pc ∧ pc.char ≠ ch ∧ e = expectedFoundMsg ch pc) ∨
       (getNextChar st = none ∧ e = expectedEndMsg ch)) := by
  unfold popChar at h
  split at h
  · rename_i pc heq
    split at h
    · exact absurd h (by simp)
    · rename_i hc
      injection h with h1 h2
      injection h1 with h1
      exact ⟨h2.symm, .inl ⟨pc, heq, hc, h1.symm⟩⟩
  · rename_i heq
    injection h with h1 h2
    injection h1 with h1
    exact ⟨h2.symm, .inr ⟨heq, h1.symm⟩⟩

theorem skipChar_ok {st : ParseInput} {ch : Char} {out : ParseInput}
    (h : skipChar st ch = (.ok (), out)) :
    (∃ pc, getNextChar st = some pc ∧ pc.char = ch) ∧
      out = { st with position := st.position + 1 } ∧
      st.position < st.chars.length := by
  unfold skipChar at h
  split at h
  · rename_i pc heq
    obtain ⟨hlt, _⟩ := getNextChar_some heq
    split at h
    · rename_i hc
      injection h with h1 h2
      exact ⟨⟨pc, heq, hc⟩, by rw [← h2, skipNextChar_eq_of_lt hlt], hlt⟩
    · exact absurd h (by simp)
  · exact absurd h (by simp)

theorem skipChar_error {st : ParseInput} {ch : Char} {e : String} {out : ParseInput}
    (h : skipChar st ch = (.error e, out)) :
    out = st ∧
      ((∃ pc, getNextChar st = some pc ∧ pc.char ≠ ch ∧ e = expectedFoundMsg ch pc) ∨
       (getNextChar st = none ∧ e = expectedEndMsg ch)) := by
  unfold skipChar at h
  split at h
  · rename_i pc heq
    split at h
    · exact absurd h (by simp)
    · rename_i hc
      injection h with h1 h2
      injection h1 with h1
      exact ⟨h2.symm, .inl ⟨pc, heq, hc, h1.symm⟩⟩
  · rename_i heq
    injection h with h1 h2
    injection h1 with h1
    exact ⟨h2.symm, .inr ⟨heq, h1.symm⟩⟩

theorem skipChar_not_match {st : ParseInput} {ch : Char}
    (h : ∀ pc, getNextChar st = some pc → pc.char ≠ ch) :
    (skipChar st ch).2 = st := by
  unfold skipChar
  split
  · rename_i pc heq
    rw [if_neg (h pc heq)]
  · rfl

/-! Whitespace skipping, keyword matching, and the collection loops. -/

/-- The whitespace set of `skip_spaces_and_newlines`. -/
def wsChars : List Char := [' ', '\n', '\r']

theorem skipSpacesAndNewlines_eq (st : ParseInput) :
    skipSpacesAndNewlines st =
      { st with position := st.position +
          ((st.chars.drop st.position).takeWhile (fun pc => wsChars.contains pc.char)).length } := by
  exact skipAnyOfChars_eq wsChars (st.chars.length - st.position) st le_rfl

theorem skipSpacesAndNewlines_chars (st : ParseInput) :
    (skipSpacesAndNewlines st).chars = st.chars := by
  rw [skipSpacesAndNewlines_eq]

theorem skipSpacesAndNewlines_le (st : ParseInput) :
    st.position ≤ (skipSpacesAndNewlines st).position := by
  rw [skipSpacesAndNewlines_eq]
  simp

theorem skipSpacesAndNewlines_position_le (st : ParseInput)
    (h : st.position ≤ st.chars.length) :
    (skipSpacesAndNewlines st).position ≤ st.chars.length := by
  rw [skipSpacesAndNewlines_eq]
  show st.position + _ ≤ _
  have hsub : ((st.chars.drop st.position).takeWhile
      (fun pc => wsChars.contains pc.char)).Sublist (st.chars.drop st.position) :=
    List.takeWhile_sublist _
  have hle := hsub.length_le
  rw [List.length_drop] at hle
  omega

theorem skipSpacesAndNewlines_not_ws {st : ParseInput} {pc : ParsedChar}
    (hg : getNextChar st = some pc) (hw : wsChars.contains pc.char = false) :
    skipSpacesAndNewlines st = st := by
  have hw' : pc.char ∉ wsChars := by simpa using hw
  rw [skipSpacesAndNewlines_eq, drop_position_cons hg]
  simp [List.takeWhile_cons, hw']

theorem skipSpacesAndNewlines_none {st : ParseInput}
    (hg : getNextChar st = none) :
    skipSpacesAndNewlines st = st := by
  have hge := getNextChar_none hg
  rw [skipSpacesAndNewlines_eq, List.drop_eq_nil_of_le hge]
  simp

theorem takeWhile_stop {α} (p : α → Bool) :
    ∀ (l : List α) (x : α), l[(l.takeWhile p).length]? = some x → p x = false := by
  intro l
  induction l with
  | nil => intro x h; simp at h
  | cons a t ih =>
    intro x h
    by_cases hp : p a
    · rw [List.takeWhile_cons, if_pos hp] at h
      simp only [List.length_cons, List.getElem?_cons_succ] at h
      exact ih x h
    · have hp' : p a = false := by simpa using hp
      rw [List.takeWhile_cons, hp'] at h
      simp at h
      rw [← h]
      exact hp'

/-- After skipping, either the input is exhausted or a non-whitespace
character is next. -/
theorem skipSpacesAndNewlines_stops (st : ParseInput) :
    getNextChar (skipSpacesAndNewlines st) = none ∨
      ∃ pc, getNextChar (skipSpacesAndNewlines st) = some pc ∧
        wsChars.contains pc.char = false := by
  rw [skipSpacesAndNewlines_eq]
  cases hg : getNextChar ({ st with position := st.position +
      ((st.chars.drop st.position).takeWhile (fun pc => wsChars.contains pc.char)).length }) with
  | none => exact .inl rfl
  | some pc =>
    refine .inr ⟨pc, rfl, ?_⟩
    have hgq : st.chars[st.position + ((st.chars.drop st.position).takeWhile
        (fun pc => wsChars.contains pc.char)).length]? = some pc := hg
    rw [← List.getElem?_drop] at hgq
    exact takeWhile_stop (fun pc => wsChars.contains pc.char) (st.chars.drop st.position) pc hgq

theorem skipXChars_chars : ∀ (x : Nat) (st : ParseInput), (skipXChars st x).chars = st.chars := by
  intro x
  induction x with
  | zero => intro st; rfl
  | succ n ih =>
    intro st
    show (skipXChars (if (st.chars[st.position + 1]?).isSome then skipNextChar st else st) n).chars
      = st.chars
    rw [ih]
    split
    · exact skipNextChar_chars st
    · rfl

theorem skipXChars_position_ge : ∀ (x : Nat) (st : ParseInput),
    st.position ≤ (skipXChars st x).position := by
  intro x
  induction x with
  | zero => intro st; exact le_rfl
  | succ n ih =>
    intro st
    show st.position ≤ (skipXChars (if (st.chars[st.position + 1]?).isSome
      then skipNextChar st else st) n).position
    split
    · rename_i hs
      have hlt : st.position + 1 < st.chars.length := by
        by_contra hge
        rw [List.getElem?_eq_none (by omega)] at hs
        simp at hs
      calc st.position ≤ (skipNextChar st).position := by
            rw [skipNextChar_eq_of_lt (by omega)]; simp
        _ ≤ _ := ih _
    · exact ih st

/-! Lookahead window facts. -/

theorem getNextXCharsGo_some (chars : List ParsedChar) :
    ∀ (n i : Nat), i + n ≤ chars.length →
      getNextXCharsGo chars i n = some ((chars.drop i).take n) := by
  intro n
  induction n with
  | zero => intro i h; simp [getNextXCharsGo]
  | succ m ih =>
    intro i h
    have hi : i < chars.length := by omega
    unfold getNextXCharsGo
    rw [List.getElem?_eq_getElem hi]
    rw [ih (i + 1) (by omega)]
    simp only [Option.some_inj]
    show chars[i] :: List.take m (List.drop (i + 1) chars) = _
    conv_rhs => rw [List.drop_eq_getElem_cons hi]
    rw [List.take_succ_cons]

theorem getNextXCharsGo_none (chars : List ParsedChar) :
    ∀ (n i : Nat), 0 < n → chars.length < i + n →
      getNextXCharsGo chars i n = none := by
  intro n
  induction n with
  | zero => intro i h0; omega
  | succ m ih =>
    intro i h0 h
    unfold getNextXCharsGo
    by_cases hi : i < chars.length
    · rw [List.getElem?_eq_getElem hi]
      rcases Nat.eq_zero_or_pos m with hm | hm
      · omega
      · rw [ih (i + 1) hm (by omega)]
    · rw [List.getElem?_eq_none (by omega)]

theorem matchWord_let_false {st : ParseInput} {pc : ParsedChar}
    (hg : getNextChar st = some pc) (hne : pc.char ≠ 'l') :
    matchWord st "let" = false := by
  obtain ⟨hlt, he⟩ := getNextChar_some hg
  unfold matchWord
  show (match getNextXChars st 3 with
    | none => false
    | some [] => false
    | some (pc :: rest) =>
        decide (String.mk ((pc :: rest).map (fun c => c.char)) = "let")) = false
  unfold getNextXChars
  by_cases hle : st.position + 3 ≤ st.chars.length
  · rw [getNextXCharsGo_some st.chars 3 st.position hle]
    have hd : (st.chars.drop st.position).take 3 =
        pc :: (st.chars.drop (st.position + 1)).take 2 := by
      rw [List.drop_eq_getElem_cons hlt, he, List.take_succ_cons]
    rw [hd]
    show decide (String.mk ((pc :: (st.chars.drop (st.position + 1)).take 2).map
      (fun c => c.char)) = "let") = false
    rw [decide_eq_false]
    intro hcon
    have hlist := congrArg String.toList hcon
    simp only [List.map_cons] at hlist
    have hhead := congrArg List.head? hlist
    simp at hhead
    exact hne hhead
  · rw [getNextXCharsGo_none st.chars 3 st.position (by omega) (by omega)]

theorem matchWord_end_false {st : ParseInput} {w : String}
    (hg : getNextChar st = none) (hw : 0 < w.length) :
    matchWord st w = false := by
  have hge := getNextChar_none hg
  unfold matchWord
  show (match getNextXChars st w.length with
    | none => false
    | some [] => false
    | some (pc :: rest) =>
        decide (String.mk ((pc :: rest).map (fun c => c.char)) = w)) = false
  unfold getNextXChars
  rw [getNextXCharsGo_none st.chars w.length st.position hw (by omega)]

theorem matchWord_true_getNext {st : ParseInput} {w : String}
    (h : matchWord st w = true) : ∃ pc, getNextChar st = some pc := by
  unfold matchWord at h
  rcases hx : getNextXChars st w.length with _ | l
  · rw [hx] at h
    simp at h
  · rcases l with _ | ⟨pc, rest⟩
    · rw [hx] at h
      simp at h
    · refine ⟨pc, ?_⟩
      unfold getNextXChars at hx
      cases hw : w.length with
      | zero =>
        rw [hw] at hx
        unfold getNextXCharsGo at hx
        simp at hx
      | succ m =>
        rw [hw] at hx
        unfold getNextXCharsGo at hx
        unfold getNextChar
        rcases hge : st.chars[st.position]? with _ | pc'
        · rw [hge] at hx
          simp at hx
        · rw [hge] at hx
          rcases hrec : getNextXCharsGo st.chars (st.position + 1) m with _ | l'
          · rw [hrec] at hx
            simp at hx
          · rw [hrec] at hx
            simp only [Option.some_inj, List.cons.injEq] at hx
            exact congrArg some hx.1

/-! Keyword skipping. -/

theorem skipString_chars (st : ParseInput) (w : String) :
    (skipString st w).2.chars = st.chars := by
  unfold skipString
  split
  · exact skipXChars_chars _ _
  · split <;> rfl

theorem skipString_state_false {st : ParseInput} {w : String}
    (h : matchWord st w = false) : (skipString st w).2 = st := by
  unfold skipString
  rw [h]
  simp only [Bool.false_eq_true, if_false]
  split <;> rfl

theorem skipString_position_ge (st : ParseInput) (w : String) :
    st.position ≤ (skipString st w).2.position := by
  unfold skipString
  split
  · exact skipXChars_position_ge _ _
  · split <;> exact le_rfl

/-! The digit and identifier collection loops pop the longest matching
prefix. -/

theorem parseIntegerLoopGo_eq : ∀ (m : Nat) (st : ParseInput),
    st.chars.length - st.position ≤ m →
    parseIntegerLoopGo m st =
      (String.mk (((st.chars.drop st.position).takeWhile
          (fun pc => rustIsNumeric pc.char)).map (fun pc => pc.char)),
       { st with position := st.position + ((st.chars.drop st.position).takeWhile
          (fun pc => rustIsNumeric pc.char)).length }) := by
  intro m
  induction m with
  | zero =>
    intro st h
    have hge : st.chars.length ≤ st.position := by omega
    rw [List.drop_eq_nil_of_le hge]
    simp [parseIntegerLoopGo]
  | succ n ih =>
    intro st h
    rcases heq : popNextCharNumerical st with ⟨r, st'⟩
    rcases r with e | c
    · obtain ⟨ho, hd⟩ := popNumerical_error heq
      rcases hd with hn | ⟨pc, hs, hq⟩
      · rw [List.drop_eq_nil_of_le (getNextChar_none hn)]
        simp [parseIntegerLoopGo, heq]
      · rw [drop_position_cons hs, List.takeWhile_cons]
        simp [parseIntegerLoopGo, heq, hq]
    · obtain ⟨hs, hq, ho, hlt⟩ := popNumerical_ok heq
      subst ho
      simp only [parseIntegerLoopGo, heq]
      rw [skipNextChar_eq_of_lt hlt]
      rw [ih { st with position := st.position + 1 } (by simp; omega)]
      rw [drop_position_cons hs, List.takeWhile_cons]
      simp only [hq, if_true, List.map_cons, List.length_cons]
      refine Prod.ext ?_ ?_
      · show c.char.toString ++ _ = _
        rw [char_toString, mk_append]
        rfl
      · show ({ st with position := st.position + 1 + _ } : ParseInput) = _
        have hp : st.position + 1 + ((st.chars.drop (st.position + 1)).takeWhile
            (fun pc => rustIsNumeric pc.char)).length =
            st.position + (((st.chars.drop (st.position + 1)).takeWhile
            (fun pc => rustIsNumeric pc.char)).length + 1) := by omega
        rw [hp]

theorem parseIntegerLoop_eq (st : ParseInput) :
    parseIntegerLoop st =
      (String.mk (((st.chars.drop st.position).takeWhile
          (fun pc => rustIsNumeric pc.char)).map (fun pc => pc.char)),
       { st with position := st.position + ((st.chars.drop st.position).takeWhile
          (fun pc => rustIsNumeric pc.char)).length }) := by
  unfold parseIntegerLoop
  exact parseIntegerLoopGo_eq _ st le_rfl

theorem parseNameLoopGo_eq : ∀ (m : Nat) (st : ParseInput),
    st.chars.length - st.position ≤ m →
    parseNameLoopGo m st =
      (String.mk (((st.chars.drop st.position).takeWhile
          (fun pc => rustIsAlphabetic pc.char || List.contains ['_', '-'] pc.char)).map
          (fun pc => pc.char)),
       { st with position := st.position + ((st.chars.drop st.position).takeWhile
          (fun pc => rustIsAlphabetic pc.char || List.contains ['_', '-'] pc.char)).length }) := by
  intro m
  induction m with
  | zero =>
    intro st h
    have hge : st.chars.length ≤ st.position := by omega
    rw [List.drop_eq_nil_of_le hge]
    simp [parseNameLoopGo]
  | succ n ih =>
    intro st h
    rcases heq : popNextCharAlphabeticalOrInGroup st ['_', '-'] with ⟨r, st'⟩
    rcases r with e | c
    · obtain ⟨ho, hd⟩ := popGroup_error heq
      rcases hd with hn | ⟨pc, hs, hq⟩
      · rw [List.drop_eq_nil_of_le (getNextChar_none hn)]
        simp [parseNameLoopGo, heq]
      · rw [drop_position_cons hs, List.takeWhile_cons]
        obtain ⟨hq1, hq2⟩ := Bool.or_eq_false_iff.mp hq
        have hu : pc.char ≠ '_' ∧ pc.char ≠ '-' := by simpa using hq2
        simp [parseNameLoopGo, heq, hq1, hu.1, hu.2]
    · obtain ⟨hs, hq, ho, hlt⟩ := popGroup_ok heq
      subst ho
      simp only [parseNameLoopGo, heq]
      rw [skipNextChar_eq_of_lt hlt]
      rw [ih { st with position := st.position + 1 } (by simp; omega)]
      rw [drop_position_cons hs, List.takeWhile_cons]
      simp only [hq, if_true, List.map_cons, List.length_cons]
      refine Prod.ext ?_ ?_
      · show c.char.toString ++ _ = _
        rw [char_toString, mk_append]
        rfl
      · show ({ st with position := st.position + 1 + _ } : ParseInput) = _
        have hp : st.position + 1 + ((st.chars.drop (st.position + 1)).takeWhile
            (fun pc => rustIsAlphabetic pc.char || List.contains ['_', '-'] pc.char)).length =
            st.position + (((st.chars.drop (st.position + 1)).takeWhile
            (fun pc => rustIsAlphabetic pc.char || List.contains ['_', '-'] pc.char)).length
              + 1) := by omega
        rw [hp]

/-! Claim C9. -/

/-- C9: at cursor construction the decoded character buffer equals the
sequence of characters of the input text with every `\n` character
removed (`\r` is retained, since only `\n` is filtered out), so reading
the remaining text of a fresh cursor returns the input with all newline
characters deleted. -/
theorem claim9_newline_stripping (t : String) :
    ((ParseInput.new t).chars.map (fun pc => pc.char) =
      t.toList.filter (fun c => decide (c ≠ '\n'))) ∧
    getRemainingText (ParseInput.new t) =
      .ok (String.mk (t.toList.filter (fun c => decide (c ≠ '\n')))) := by
  refine ⟨new_chars_map t, ?_⟩
  unfold getRemainingText
  rw [if_pos (show (ParseInput.new t).position ≤ (ParseInput.new t).chars.length from
    Nat.zero_le _)]
  rw [show (ParseInput.new t).position = 0 from rfl, List.drop_zero, new_chars_map]

theorem parseNameLoop_eq (st : ParseInput) :
    parseNameLoop st =
      (String.mk (((st.chars.drop st.position).takeWhile
          (fun pc => rustIsAlphabetic pc.char || List.contains ['_', '-'] pc.char)).map
          (fun pc => pc.char)),
       { st with position := st.position + ((st.chars.drop st.position).takeWhile
          (fun pc => rustIsAlphabetic pc.char || List.contains ['_', '-'] pc.char)).length }) := by
  unfold parseNameLoop
  exact parseNameLoopGo_eq _ st le_rfl

theorem strParseI64_digits {ds : List Char} (hne : ds ≠ [])
    (hdig : ∀ c ∈ ds, c.isDigit = true) :
    strParseI64 (String.mk ds) =
      if digitsVal ds ≤ 2 ^ 63 - 1 then .ok (digitsVal ds : Int)
      else .error "number too large to fit in target type" := by
  cases ds with
  | nil => exact absurd rfl hne
  | cons d rest =>
    have hd : d.isDigit = true := hdig d (by simp)
    have hd1 : d ≠ '-' := by
      intro h
      rw [h] at hd
      exact absurd hd (by decide)
    have hd2 : d ≠ '+' := by
      intro h
      rw [h] at hd
      exact absurd hd (by decide)
    show (if d = '-' then strParseI64Core true rest
      else if d = '+' then strParseI64Core false rest
      else strParseI64Core false (d :: rest)) = _
    rw [if_neg hd1, if_neg hd2]
    unfold strParseI64Core
    rw [if_neg (by simp)]
    rw [if_pos (by rw [List.all_eq_true]; intro c hc; exact hdig c hc)]
    rfl

theorem parseInteger_of_ok {st : ParseInput} {c : ParsedChar} {st1 : ParseInput}
    (h : popNextCharNumerical st = (.ok c, st1)) :
    parseInteger st =
      (match strParseI64 (c.char.toString ++ (parseIntegerLoop st1).1) with
       | .ok v => (.ok (.mk (.ASTInteger v) ⟨c.line, c.column⟩), (parseIntegerLoop st1).2)
       | .error e => (.error e, (parseIntegerLoop st1).2)) := by
  unfold parseInteger
  rw [h]

/-- On a nonempty all-digit buffer, `parse_integer` collects every digit,
consumes the whole input, takes the first character's location, and hands
the digit string to the `i64` conversion. -/
theorem parseInteger_digits {ds : List Char} (hne : ds ≠ [])
    (hdig : ∀ c ∈ ds, c.isDigit = true) :
    parseInteger ⟨0, numberLine 1 1 ds⟩ =
      ((strParseI64 (String.mk ds)).map
        (fun v => ASTNode.mk (.ASTInteger v) ⟨1, 1⟩),
       ⟨ds.length, numberLine 1 1 ds⟩) := by
  cases ds with
  | nil => exact absurd rfl hne
  | cons d rest =>
    have hd : rustIsNumeric d = true := hdig d (by simp)
    have hg : getNextChar ⟨0, numberLine 1 1 (d :: rest)⟩ = some ⟨d, 1, 1⟩ := by
      simp [getNextChar, numberLine]
    have hlen : (numberLine 1 1 (d :: rest)).length = rest.length + 1 := by
      rw [numberLine_length]
      simp
    have hpos : ((⟨0, numberLine 1 1 (d :: rest)⟩ : ParseInput)).position <
        ((⟨0, numberLine 1 1 (d :: rest)⟩ : ParseInput)).chars.length := by
      show (0 : Nat) < (numberLine 1 1 (d :: rest)).length
      rw [hlen]
      omega
    have hstate : skipNextChar (⟨0, numberLine 1 1 (d :: rest)⟩ : ParseInput) =
        ⟨1, numberLine 1 1 (d :: rest)⟩ := skipNextChar_eq_of_lt hpos
    rw [parseInteger_of_ok (popNumerical_of_true hg hd), hstate]
    rw [parseIntegerLoop_eq ⟨1, numberLine 1 1 (d :: rest)⟩]
    have hdrop : (numberLine 1 1 (d :: rest)).drop 1 = numberLine 1 2 rest := rfl
    have htw : (numberLine 1 2 rest).takeWhile (fun pc => rustIsNumeric pc.char) =
        numberLine 1 2 rest := by
      apply takeWhile_all_of
      intro pc hpc
      apply hdig
      have hmem : pc.char ∈ (numberLine 1 2 rest).map (fun pc => pc.char) :=
        List.mem_map_of_mem _ hpc
      rw [map_char_numberLine] at hmem
      simp [hmem]
    have hcs : ((⟨1, numberLine 1 1 (d :: rest)⟩ : ParseInput)).chars =
        numberLine 1 1 (d :: rest) := rfl
    have hps : ((⟨1, numberLine 1 1 (d :: rest)⟩ : ParseInput)).position = 1 := rfl
    simp only [hcs, hps, hdrop, htw, map_char_numberLine, numberLine_length]
    have hout : d.toString ++ String.mk rest = String.mk (d :: rest) := by
      rw [char_toString, mk_append]
      rfl
    rw [hout]
    cases hx : strParseI64 (String.mk (d :: rest)) with
    | ok v =>
      simp only [Except.map]
      refine Prod.ext rfl ?_
      show ({ position := 1 + rest.length, chars := numberLine 1 1 (d :: rest) }
        : ParseInput) = _
      have h1 : 1 + rest.length = (d :: rest).length := by simp; omega
      rw [h1]
    | error e =>
      simp only [Except.map]
      refine Prod.ext rfl ?_
      show ({ position := 1 + rest.length, chars := numberLine 1 1 (d :: rest) }
        : ParseInput) = _
      have h1 : 1 + rest.length = (d :: rest).length := by simp; omega
      rw [h1]


/-! Claim C3. -/

/-- C3 counterexample: the integer rule rejects `-5` outright (the first
character must already be numeric), so negative literals are not
accepted and the cursor is left untouched. -/
theorem claim3_counterexample :
    (parseInteger (ParseInput.new "-5")).1 =
      .error ("Expected numerical character at line: 1, column: 1, but found -") ∧
    (parseInteger (ParseInput.new "-5")).2 = ParseInput.new "-5" :=
  ⟨rfl, rfl⟩

/-- C3 amended: for every input text matching `[0-9]+` (no sign) whose
value is representable in `i64`, parsing that text alone yields a single
Integer node with the parsed value, consumes the entire input, and
records the location of the first character (line 1, column 1). -/
theorem claim3_amended (ds : List Char) (hne : ds ≠ [])
    (hdig : ∀ c ∈ ds, c.isDigit = true) (hrange : digitsVal ds ≤ 2 ^ 63 - 1) :
    parseInteger (ParseInput.new (String.mk ds)) =
      (.ok (.mk (.ASTInteger (digitsVal ds)) ⟨1, 1⟩),
       { position := (ParseInput.new (String.mk ds)).chars.length,
         chars := (ParseInput.new (String.mk ds)).chars }) := by
  have hnn : ∀ c ∈ ds, c ≠ '\n' := by
    intro c hc hcn
    have hd := hdig c hc
    rw [hcn] at hd
    exact absurd hd (by decide)
  rw [new_no_newline hnn]
  rw [parseInteger_digits hne hdig]
  rw [strParseI64_digits hne hdig]
  rw [if_pos hrange]
  show (_, _) = (_, _)
  refine Prod.ext rfl ?_
  show (⟨ds.length, numberLine 1 1 ds⟩ : ParseInput) = _
  rw [show ((⟨0, numberLine 1 1 ds⟩ : ParseInput)).chars = numberLine 1 1 ds from rfl]
  rw [numberLine_length]

/-- Witness for the amended C3 at the concrete input `42`. -/
theorem claim3_amended_witness :
    parseInteger (ParseInput.new "42") =
      (.ok (.mk (.ASTInteger (digitsVal "42".toList)) ⟨1, 1⟩),
       { position := (ParseInput.new "42").chars.length,
         chars := (ParseInput.new "42").chars }) :=
  claim3_amended "42".toList (by decide) (by decide) (by decide)

/-! Claim C7. -/

/-- C7: the code deviates from the claimed frame contract of
`skip_string`.  On the input `let` the window check for the word `let`
succeeds, yet the cursor advances only two characters (to position 2, on
the final `t`) instead of `len("let") = 3`, because `skip_x_chars` only
advances while `chars.get(position + 1)` is occupied. -/
theorem claim7_code_divergence :
    matchWord (ParseInput.new "let") "let" = true ∧
    skipString (ParseInput.new "let") "let" =
      (.ok (), ⟨2, [⟨'l', 1, 1⟩, ⟨'e', 1, 2⟩, ⟨'t', 1, 3⟩]⟩) ∧
    (skipString (ParseInput.new "let") "let").2.position ≠
      (ParseInput.new "let").position + "let".length :=
  ⟨rfl, rfl, by decide⟩

/-! Claim C2. -/

/-- C2 counterexample: for the multi-line text `a`-newline-`b` (which
contains no double quote), parsing it between quotes yields
`String("ab")` — the newline is deleted at cursor construction, so the
content is not the text unchanged. -/
theorem claim2_counterexample :
    (parseStringLiteral (ParseInput.new (String.mk [dquote, 'a', '\n', 'b', dquote]))).1 =
      .ok (.mk (.ASTString "ab") ⟨1, 1⟩) ∧
    ("ab" : String) ≠ String.mk ['a', '\n', 'b'] :=
  ⟨rfl, by decide⟩

/-- C2 amended: for every text not containing a bare double quote,
parsing `"` ++ text ++ `"` yields a String node whose content equals the
text with every `\n` character removed (hence unchanged exactly when the
text has no newline; non-ASCII scalar values are preserved), with the
node at line 1, column 1 and the whole input consumed. -/
theorem claim2_amended (text : List Char) (hq : dquote ∉ text) :
    parseStringLiteral (ParseInput.new (String.mk (dquote :: (text ++ [dquote])))) =
      (.ok (.mk (.ASTString (String.mk (text.filter (fun c => decide (c ≠ '\n')))))
        ⟨1, 1⟩),
       { position := (ParseInput.new (String.mk (dquote :: (text ++ [dquote])))).chars.length,
         chars := (ParseInput.new (String.mk (dquote :: (text ++ [dquote])))).chars }) := by
  have hqn : dquote ≠ '\n' := by decide
  obtain ⟨rest, hB⟩ : ∃ rest,
      (ParseInput.new (String.mk (dquote :: (text ++ [dquote])))).chars =
        ⟨dquote, 1, 1⟩ :: rest :=
    new_head hqn
  have hmap0 := new_chars_map (String.mk (dquote :: (text ++ [dquote])))
  rw [show (String.mk (dquote :: (text ++ [dquote]))).toList =
    dquote :: (text ++ [dquote]) from rfl] at hmap0
  rw [List.filter_cons] at hmap0
  rw [if_pos (by decide)] at hmap0
  rw [List.filter_append] at hmap0
  rw [show List.filter (fun c => decide (c ≠ '\n')) [dquote] = [dquote] from by decide]
    at hmap0
  rw [hB, List.map_cons] at hmap0
  have hrestmap : rest.map (fun pc => pc.char) =
      text.filter (fun c => decide (c ≠ '\n')) ++ [dquote] := by
    injection hmap0 with h1 h2
  obtain ⟨mid, tailq, hrest, hmidmap, htailmap⟩ := List.map_eq_append_iff.mp hrestmap
  obtain ⟨pcq, tl2, htl, hpcq, htl2⟩ := List.map_eq_cons_iff.mp htailmap
  have htl2nil : tl2 = [] := by
    cases tl2 with
    | nil => rfl
    | cons a b => simp at htl2
  rw [htl2nil] at htl
  rw [htl] at hrest
  have hmid : ∀ pc ∈ mid, pc.char ≠ dquote := by
    intro pc hpc hcq
    have hmm : pc.char ∈ text.filter (fun c => decide (c ≠ '\n')) := by
      rw [← hmidmap]
      exact List.mem_map_of_mem _ hpc
    rw [hcq] at hmm
    exact hq (List.mem_of_mem_filter hmm)
  have hinp : (ParseInput.new (String.mk (dquote :: (text ++ [dquote])))) =
      ⟨0, (⟨dquote, 1, 1⟩ : ParsedChar) :: (mid ++ [pcq])⟩ := by
    rw [show (ParseInput.new (String.mk (dquote :: (text ++ [dquote])))) =
      (⟨(ParseInput.new (String.mk (dquote :: (text ++ [dquote])))).position,
        (ParseInput.new (String.mk (dquote :: (text ++ [dquote])))).chars⟩ : ParseInput)
      from rfl]
    rw [hB, hrest]
    rw [show (ParseInput.new (String.mk (dquote :: (text ++ [dquote])))).position = 0
      from rfl]
  rw [hinp]
  rw [parseStringLiteral_decomp ⟨dquote, 1, 1⟩ pcq mid rfl hpcq hmid]
  rw [hmidmap]
  refine Prod.ext rfl ?_
  show (⟨mid.length + 2, _⟩ : ParseInput) = _
  rw [show ((⟨0, (⟨dquote, 1, 1⟩ : ParsedChar) :: (mid ++ [pcq])⟩ : ParseInput)).chars =
    (⟨dquote, 1, 1⟩ : ParsedChar) :: (mid ++ [pcq]) from rfl]
  rw [show ((⟨dquote, 1, 1⟩ : ParsedChar) :: (mid ++ [pcq]) : List ParsedChar).length =
    mid.length + 2 from by simp]

/-- Witness for the amended C2 at the concrete text `a`. -/
theorem claim2_amended_witness :
    parseStringLiteral (ParseInput.new (String.mk (dquote :: (['a'] ++ [dquote])))) =
      (.ok (.mk (.ASTString (String.mk (['a'].filter (fun c => decide (c ≠ '\n')))))
        ⟨1, 1⟩),
       { position := (ParseInput.new (String.mk (dquote :: (['a'] ++ [dquote])))).chars.length,
         chars := (ParseInput.new (String.mk (dquote :: (['a'] ++ [dquote])))).chars }) :=
  claim2_amended ['a'] (by decide)

/-! The backtracking alternation: generic behaviour of
`try_parsers_with_list`. -/

theorem tryParsersGo_cons_ok {p : ParseInput → PRes} {rest : List (ParseInput → PRes)}
    {input : ParseInput} {lastErr : String} {sp : Nat} {x : ASTNode} {st2 : ParseInput}
    (hp : p (skipSpacesAndNewlines input) = (.ok x, st2)) :
    tryParsersGo sp (p :: rest) input lastErr = (.ok x, st2) := by
  simp only [tryParsersGo]
  rw [hp]

theorem tryParsersGo_cons_error {p : ParseInput → PRes} {rest : List (ParseInput → PRes)}
    {input : ParseInput} {lastErr : String} {sp : Nat} {e2 : String} {st2 : ParseInput}
    (hp : p (skipSpacesAndNewlines input) = (.error e2, st2)) :
    tryParsersGo sp (p :: rest) input lastErr =
      tryParsersGo sp rest (loadSavePoint st2 sp) e2 := by
  simp only [tryParsersGo]
  rw [hp]

/-- A failed candidate followed by the save-point restore puts the loop
back on exactly the cursor it started from. -/
theorem restore_eq_input {p : ParseInput → PRes} {input st2 : ParseInput} {r : Except String ASTNode}
    (hP : ∀ i, ((p i).2).chars = i.chars)
    (hp : p (skipSpacesAndNewlines input) = (r, st2)) :
    loadSavePoint st2 input.position = input := by
  have hch : st2.chars = input.chars := by
    have h2 : st2 = (p (skipSpacesAndNewlines input)).2 := by rw [hp]
    rw [h2, hP (skipSpacesAndNewlines input), skipSpacesAndNewlines_chars]
  unfold loadSavePoint
  rw [hch]

theorem tryParsersGo_ok_cases :
    ∀ (ps : List (ParseInput → PRes)) (input : ParseInput) (lastErr : String)
      (v : ASTNode) (out : ParseInput),
      (∀ p ∈ ps, ∀ i, ((p i).2).chars = i.chars) →
      tryParsersGo input.position ps input lastErr = (.ok v, out) →
      ∃ k, ∃ hk : k < ps.length,
        (∀ j, ∀ hj : j < k, ∃ e o, (ps.get ⟨j, by omega⟩) (skipSpacesAndNewlines input) =
          (.error e, o)) ∧
        (ps.get ⟨k, hk⟩) (skipSpacesAndNewlines input) = (.ok v, out) := by
  intro ps
  induction ps with
  | nil =>
    intro input lastErr v out hP h
    exact absurd h (by simp [tryParsersGo])
  | cons p rest ih =>
    intro input lastErr v out hP h
    rcases hp : p (skipSpacesAndNewlines input) with ⟨r, st2⟩
    rcases r with e2 | x
    · rw [tryParsersGo_cons_error hp] at h
      have hres : loadSavePoint st2 input.position = input := restore_eq_input (hP p (by simp)) hp
      rw [hres] at h
      obtain ⟨k, hk, hpre, hkk⟩ := ih input e2 v out (fun q hq i => hP q (by simp [hq]) i) h
      refine ⟨k + 1, by simpa using Nat.succ_lt_succ hk, ?_, ?_⟩
      · intro j hj
        cases j with
        | zero => exact ⟨e2, st2, hp⟩
        | succ m =>
          obtain ⟨e3, o, ho⟩ := hpre m (by omega)
          exact ⟨e3, o, ho⟩
      · exact hkk
    · rw [tryParsersGo_cons_ok hp] at h
      injection h with h1 h2
      injection h1 with h1
      refine ⟨0, by simp, fun j hj => absurd hj (by omega), ?_⟩
      show p (skipSpacesAndNewlines input) = _
      rw [hp, h1, h2]

theorem tryParsersGo_error_cases :
    ∀ (ps : List (ParseInput → PRes)) (input : ParseInput) (lastErr : String)
      (e : String) (out : ParseInput),
      (∀ p ∈ ps, ∀ i, ((p i).2).chars = i.chars) →
      tryParsersGo input.position ps input lastErr = (.error e, out) →
      out = input ∧
      (∀ j, ∀ hj : j < ps.length, ∃ e2 o, (ps.get ⟨j, hj⟩) (skipSpacesAndNewlines input) =
        (.error e2, o)) ∧
      ((ps = [] ∧ e = lastErr) ∨
       (∃ hne : ps ≠ [], ∃ o, (ps.getLast hne) (skipSpacesAndNewlines input) =
         (.error e, o))) := by
  intro ps
  induction ps with
  | nil =>
    intro input lastErr e out hP h
    simp only [tryParsersGo] at h
    injection h with h1 h2
    injection h1 with h1
    exact ⟨h2.symm, fun j hj => absurd hj (by simp at hj), .inl ⟨rfl, h1.symm⟩⟩
  | cons p rest ih =>
    intro input lastErr e out hP h
    rcases hp : p (skipSpacesAndNewlines input) with ⟨r, st2⟩
    rcases r with e2 | x
    · rw [tryParsersGo_cons_error hp] at h
      have hres : loadSavePoint st2 input.position = input := restore_eq_input (hP p (by simp)) hp
      rw [hres] at h
      obtain ⟨hout, hall, hlast⟩ := ih input e2 e out (fun q hq i => hP q (by simp [hq]) i) h
      refine ⟨hout, ?_, ?_⟩
      · intro j hj
        cases j with
        | zero => exact ⟨e2, st2, hp⟩
        | succ m =>
          obtain ⟨e3, o, ho⟩ := hall m (by simpa using Nat.lt_of_succ_lt_succ hj)
          exact ⟨e3, o, ho⟩
      · rcases hlast with ⟨hnil, he⟩ | ⟨hne, o, ho⟩
        · subst hnil
          subst he
          exact .inr ⟨by simp, st2, by rw [List.getLast_singleton]; exact hp⟩
        · refine .inr ⟨by simp, o, ?_⟩
          rw [List.getLast_cons hne]
          exact ho
    · rw [tryParsersGo_cons_ok hp] at h
      exact absurd h (by simp)

/-! Per-rule frame facts: every rule leaves the character buffer alone,
and a successful rule consumes at least one character and stays inside
the buffer. -/

/-- Shape of every error the last alternation candidate (the parentheses
rule) can produce: a `pop_char`/`skip_char` message about `(`. -/
def PErrShape (e : String) : Prop :=
  (∃ pc, e = expectedFoundMsg oparen pc) ∨ e = expectedEndMsg oparen

theorem parseStringLiteral_of_err {st : ParseInput} {e : String} {st1 : ParseInput}
    (h : popChar st dquote = (.error e, st1)) :
    parseStringLiteral st = (.error e, st1) := by
  unfold parseStringLiteral
  rw [h]

theorem parseStringLiteral_chars (st : ParseInput) :
    ((parseStringLiteral st).2).chars = st.chars := by
  rcases h : popChar st dquote with ⟨r, st1⟩
  rcases r with e | c
  · rw [parseStringLiteral_of_err h]
    rw [(popChar_error h).1]
  · obtain ⟨hg, hc, ho, hlt⟩ := popChar_ok h
    rw [parseStringLiteral_of_ok h]
    rcases h2 : skipChar (popUntilChar st1 dquote).2 dquote with ⟨r2, st3⟩
    have hpu : ((popUntilChar st1 dquote).2).chars = st1.chars := by
      rw [popUntilChar_eq]
    rcases r2 with e2 | u
    · show st3.chars = st.chars
      rw [(skipChar_error h2).1, hpu, ho]
    · show st3.chars = st.chars
      have h3 := (skipChar_ok h2).2.1
      rw [h3]
      show ((popUntilChar st1 dquote).2).chars = st.chars
      rw [hpu, ho]

theorem parseStringLiteral_consumes {st : ParseInput} {v : ASTNode} {out : ParseInput}
    (h : parseStringLiteral st = (.ok v, out)) :
    st.position < out.position ∧ out.position ≤ st.chars.length := by
  rcases hp : popChar st dquote with ⟨r, st1⟩
  rcases r with e | c
  · rw [parseStringLiteral_of_err hp] at h
    exact absurd h (by simp)
  · obtain ⟨hg, hc, ho, hlt⟩ := popChar_ok hp
    rw [parseStringLiteral_of_ok hp] at h
    rcases h2 : skipChar (popUntilChar st1 dquote).2 dquote with ⟨r2, st3⟩
    rcases r2 with e2 | u
    · rw [h2] at h
      exact absurd h (by simp)
    · rw [h2] at h
      have hout : out = st3 := by
        have h' : ((Except.ok (ASTNode.mk (.ASTString (popUntilChar st1 dquote).1)
            ⟨c.line, c.column⟩) : Except String ASTNode),
            st3) = (Except.ok v, out) := h
        injection h' with h1 h2'
        exact h2'.symm
      obtain ⟨hgq, h3, hlt3⟩ := skipChar_ok h2
      have hpu2 : ((popUntilChar st1 dquote).2).position = st1.position +
          ((st1.chars.drop st1.position).takeWhile (fun pc => decide (pc.char ≠ dquote))).length := by
        rw [popUntilChar_eq]
      have hchu : ((popUntilChar st1 dquote).2).chars = st1.chars := by
        rw [popUntilChar_eq]
      have houtp : out.position = ((popUntilChar st1 dquote).2).position + 1 := by
        rw [hout, h3]
      have hst1p : st1.position = st.position + 1 := by rw [ho]
      have hst1c : st1.chars.length = st.chars.length := by rw [ho]
      rw [hchu, hpu2, hst1c, hst1p] at hlt3
      rw [hpu2, hst1p] at houtp
      rw [houtp]
      omega

theorem parseInteger_of_err {st : ParseInput} {e : String} {st1 : ParseInput}
    (h : popNextCharNumerical st = (.error e, st1)) :
    parseInteger st = (.error e, st1) := by
  unfold parseInteger
  rw [h]

theorem parseInteger_chars (st : ParseInput) :
    ((parseInteger st).2).chars = st.chars := by
  rcases h : popNextCharNumerical st with ⟨r, st1⟩
  rcases r with e | c
  · rw [parseInteger_of_err h]
    rw [(popNumerical_error h).1]
  · obtain ⟨hg, hq, ho, hlt⟩ := popNumerical_ok h
    rw [parseInteger_of_ok h]
    have hloop : ((parseIntegerLoop st1).2).chars = st1.chars := by
      rw [parseIntegerLoop_eq]
    rcases h2 : strParseI64 (c.char.toString ++ (parseIntegerLoop st1).1) with e2 | v
    · show ((parseIntegerLoop st1).2).chars = st.chars
      rw [hloop, ho, skipNextChar_chars]
    · show ((parseIntegerLoop st1).2).chars = st.chars
      rw [hloop, ho, skipNextChar_chars]

theorem parseInteger_consumes {st : ParseInput} {v : ASTNode} {out : ParseInput}
    (h : parseInteger st = (.ok v, out)) :
    st.position < out.position ∧ out.position ≤ st.chars.length := by
  rcases hp : popNextCharNumerical st with ⟨r, st1⟩
  rcases r with e | c
  · rw [parseInteger_of_err hp] at h
    exact absurd h (by simp)
  · obtain ⟨hg, hq, ho, hlt⟩ := popNumerical_ok hp
    rw [parseInteger_of_ok hp] at h
    rcases h2 : strParseI64 (c.char.toString ++ (parseIntegerLoop st1).1) with e2 | v2
    · rw [h2] at h
      exact absurd h (by simp)
    · rw [h2] at h
      have hout : out = (parseIntegerLoop st1).2 := by
        have h' : ((Except.ok (ASTNode.mk (.ASTInteger v2) ⟨c.line, c.column⟩) :
            Except String ASTNode), (parseIntegerLoop st1).2) = (Except.ok v, out) := h
        injection h' with h1 h2'
        exact h2'.symm
      have hpos : ((parseIntegerLoop st1).2).position = st1.position +
          ((st1.chars.drop st1.position).takeWhile (fun pc => rustIsNumeric pc.char)).length := by
        rw [parseIntegerLoop_eq]
      have htwle : ((st1.chars.drop st1.position).takeWhile
          (fun pc => rustIsNumeric pc.char)).length ≤ st1.chars.length - st1.position := by
        have hsub : ((st1.chars.drop st1.position).takeWhile
            (fun pc => rustIsNumeric pc.char)).Sublist (st1.chars.drop st1.position) :=
          List.takeWhile_sublist _
        have hle := hsub.length_le
        rw [List.length_drop] at hle
        exact hle
      have hst1p : st1.position = st.position + 1 := by
        rw [ho, skipNextChar_eq_of_lt hlt]
      have hst1c : st1.chars = st.chars := by
        rw [ho, skipNextChar_chars]
      rw [hout, hpos]
      rw [hst1p, hst1c] at htwle ⊢
      omega

theorem parseVariableRef_of_err {st : ParseInput} {e : String} {st1 : ParseInput}
    (h : popNextCharAlphabetical st = (.error e, st1)) :
    parseVariableRef st = (.error e, st1) := by
  unfold parseVariableRef
  rw [h]

theorem parseVariableRef_of_ok {st : ParseInput} {c : ParsedChar} {st1 : ParseInput}
    (h : popNextCharAlphabetical st = (.ok c, st1)) :
    parseVariableRef st =
      (.ok (.mk (.ASTVariableRef (c.char.toString ++ (parseNameLoop st1).1))
        ⟨c.line, c.column⟩), (parseNameLoop st1).2) := by
  unfold parseVariableRef
  rw [h]

theorem parseVariableRef_chars (st : ParseInput) :
    ((parseVariableRef st).2).chars = st.chars := by
  rcases h : popNextCharAlphabetical st with ⟨r, st1⟩
  rcases r with e | c
  · rw [parseVariableRef_of_err h]
    rw [(popAlphabetical_error h).1]
  · obtain ⟨hg, hq, ho, hlt⟩ := popAlphabetical_ok h
    rw [parseVariableRef_of_ok h]
    show ((parseNameLoop st1).2).chars = st.chars
    rw [parseNameLoop_eq]
    show st1.chars = st.chars
    rw [ho, skipNextChar_chars]

theorem parseVariableRef_consumes {st : ParseInput} {v : ASTNode} {out : ParseInput}
    (h : parseVariableRef st = (.ok v, out)) :
    st.position < out.position ∧ out.position ≤ st.chars.length := by
  rcases hp : popNextCharAlphabetical st with ⟨r, st1⟩
  rcases r with e | c
  · rw [parseVariableRef_of_err hp] at h
    exact absurd h (by simp)
  · obtain ⟨hg, hq, ho, hlt⟩ := popAlphabetical_ok hp
    rw [parseVariableRef_of_ok hp] at h
    have hout : out = (parseNameLoop st1).2 := by
      have h' : ((Except.ok (ASTNode.mk (.ASTVariableRef (c.char.toString ++
          (parseNameLoop st1).1)) ⟨c.line, c.column⟩) : Except String ASTNode),
          (parseNameLoop st1).2) = (Except.ok v, out) := h
      injection h' with h1 h2'
      exact h2'.symm
    have hpos : ((parseNameLoop st1).2).position = st1.position +
        ((st1.chars.drop st1.position).takeWhile
          (fun pc => rustIsAlphabetic pc.char || List.contains ['_', '-'] pc.char)).length := by
      rw [parseNameLoop_eq]
    have htwle : ((st1.chars.drop st1.position).takeWhile
        (fun pc => rustIsAlphabetic pc.char || List.contains ['_', '-'] pc.char)).length ≤
        st1.chars.length - st1.position := by
      have hsub : ((st1.chars.drop st1.position).takeWhile
          (fun pc => rustIsAlphabetic pc.char || List.contains ['_', '-'] pc.char)).Sublist
          (st1.chars.drop st1.position) :=
        List.takeWhile_sublist _
      have hle := hsub.length_le
      rw [List.length_drop] at hle
      exact hle
    have hst1p : st1.position = st.position + 1 := by
      rw [ho, skipNextChar_eq_of_lt hlt]
    have hst1c : st1.chars = st.chars := by
      rw [ho, skipNextChar_chars]
    rw [hout, hpos]
    rw [hst1p, hst1c] at htwle ⊢
    omega

theorem parseName_of_err {st : ParseInput} {e : String} {st1 : ParseInput}
    (h : popNextCharAlphabetical st = (.error e, st1)) :
    parseName st = (.error e, st1) := by
  unfold parseName
  rw [h]

theorem parseName_of_ok {st : ParseInput} {c : ParsedChar} {st1 : ParseInput}
    (h : popNextCharAlphabetical st = (.ok c, st1)) :
    parseName st = (.ok (c.char.toString ++ (parseNameLoop st1).1), (parseNameLoop st1).2) := by
  unfold parseName
  rw [h]

theorem parseName_chars (st : ParseInput) :
    ((parseName st).2).chars = st.chars := by
  rcases h : popNextCharAlphabetical st with ⟨r, st1⟩
  rcases r with e | c
  · rw [parseName_of_err h]
    rw [(popAlphabetical_error h).1]
  · obtain ⟨hg, hq, ho, hlt⟩ := popAlphabetical_ok h
    rw [parseName_of_ok h]
    show ((parseNameLoop st1).2).chars = st.chars
    rw [parseNameLoop_eq]
    show st1.chars = st.chars
    rw [ho, skipNextChar_chars]

theorem parseName_consumes {st : ParseInput} {v : String} {out : ParseInput}
    (h : parseName st = (.ok v, out)) :
    st.position < out.position ∧ out.position ≤ st.chars.length := by
  rcases hp : popNextCharAlphabetical st with ⟨r, st1⟩
  rcases r with e | c
  · rw [parseName_of_err hp] at h
    exact absurd h (by simp)
  · obtain ⟨hg, hq, ho, hlt⟩ := popAlphabetical_ok hp
    rw [parseName_of_ok hp] at h
    have hout : out = (parseNameLoop st1).2 := by
      have h' : ((Except.ok (c.char.toString ++ (parseNameLoop st1).1) :
          Except String String), (parseNameLoop st1).2) = (Except.ok v, out) := h
      injection h' with h1 h2'
      exact h2'.symm
    have hpos : ((parseNameLoop st1).2).position = st1.position +
        ((st1.chars.drop st1.position).takeWhile
          (fun pc => rustIsAlphabetic pc.char || List.contains ['_', '-'] pc.char)).length := by
      rw [parseNameLoop_eq]
    have htwle : ((st1.chars.drop st1.position).takeWhile
        (fun pc => rustIsAlphabetic pc.char || List.contains ['_', '-'] pc.char)).length ≤
        st1.chars.length - st1.position := by
      have hsub : ((st1.chars.drop st1.position).takeWhile
          (fun pc => rustIsAlphabetic pc.char || List.contains ['_', '-'] pc.char)).Sublist
          (st1.chars.drop st1.position) :=
        List.takeWhile_sublist _
      have hle := hsub.length_le
      rw [List.length_drop] at hle
      exact hle
    have hst1p : st1.position = st.position + 1 := by
      rw [ho, skipNextChar_eq_of_lt hlt]
    have hst1c : st1.chars = st.chars := by
      rw [ho, skipNextChar_chars]
    rw [hout, hpos]
    rw [hst1p, hst1c] at htwle ⊢
    omega

theorem parseName_error_state {st : ParseInput} {e : String} {out : ParseInput}
    (h : parseName st = (.error e, out)) : out = st := by
  rcases hp : popNextCharAlphabetical st with ⟨r, st1⟩
  rcases r with e2 | c
  · rw [parseName_of_err hp] at h
    injection h with h1 h2
    rw [← h2]
    exact (popAlphabetical_error hp).1
  · rw [parseName_of_ok hp] at h
    exact absurd h (by simp)

/-! Buffer preservation for the composite rules and the alternation. -/

theorem skipChar_chars (st : ParseInput) (ch : Char) :
    ((skipChar st ch).2).chars = st.chars := by
  rcases hs : skipChar st ch with ⟨r2, st3⟩
  show st3.chars = st.chars
  rcases r2 with e2 | u
  · rw [(skipChar_error hs).1]
  · rw [(skipChar_ok hs).2.1]

/-! One-step reduction lemmas for the staged composite rules. -/

theorem encloseLoopF_of_ok {interior : ParseInput → PRes} {closeC : Char}
    {build : List ASTNode → ASTExpression} {sc : ParsedChar}
    {st st2 : ParseInput} {x : ASTNode} {k : Nat} {acc : List ASTNode}
    (h : interior (skipSpacesAndNewlines st) = (.ok x, st2)) :
    encloseLoopF interior closeC build sc (k + 1) st acc =
      encloseLoopF interior closeC build sc k st2 (acc ++ [x]) := by
  simp only [encloseLoopF]
  rw [h]

theorem encloseLoopF_of_err {interior : ParseInput → PRes} {closeC : Char}
    {build : List ASTNode → ASTExpression} {sc : ParsedChar}
    {st st2 : ParseInput} {e : String} {k : Nat} {acc : List ASTNode}
    (h : interior (skipSpacesAndNewlines st) = (.error e, st2)) :
    encloseLoopF interior closeC build sc (k + 1) st acc =
      encloseFinish closeC build sc e acc st2 := by
  simp only [encloseLoopF]
  rw [h]

theorem encloseFinish_of_ok {closeC : Char} {build : List ASTNode → ASTExpression}
    {sc : ParsedChar} {e : String} {acc : List ASTNode}
    {st2 st3 : ParseInput} {u : Unit}
    (h : skipChar st2 closeC = (.ok u, st3)) :
    encloseFinish closeC build sc e acc st2 =
      (.ok (.mk (build acc) ⟨sc.line, sc.column⟩), st3) := by
  unfold encloseFinish
  rw [h]

theorem encloseFinish_of_err {closeC : Char} {build : List ASTNode → ASTExpression}
    {sc : ParsedChar} {e e2 : String} {acc : List ASTNode} {st2 st3 : ParseInput}
    (h : skipChar st2 closeC = (.error e2, st3)) :
    encloseFinish closeC build sc e acc st2 = (.error e, st3) := by
  unfold encloseFinish
  rw [h]

theorem parseScopeWith_of_popErr {interior : ParseInput → PRes}
    {st st1 : ParseInput} {e : String}
    (h : popChar st obrace = (.error e, st1)) :
    parseScopeWith interior st = (.error e, st1) := by
  unfold parseScopeWith
  rw [h]

theorem parseScopeWith_of_popOk {interior : ParseInput → PRes}
    {st st1 : ParseInput} {c : ParsedChar}
    (h : popChar st obrace = (.ok c, st1)) :
    parseScopeWith interior st =
      encloseLoopF interior cbrace ASTExpression.ASTScope c
        (st1.chars.length + 1 - st1.position) st1 [] := by
  unfold parseScopeWith
  rw [h]

theorem parseParenthesesWith_of_popErr {interior : ParseInput → PRes}
    {st st1 : ParseInput} {e : String}
    (h : popChar st oparen = (.error e, st1)) :
    parseParenthesesWith interior st = (.error e, st1) := by
  unfold parseParenthesesWith
  rw [h]

theorem parseParenthesesWith_of_popOk {interior : ParseInput → PRes}
    {st st1 : ParseInput} {c : ParsedChar}
    (h : popChar st oparen = (.ok c, st1)) :
    parseParenthesesWith interior st =
      encloseLoopF interior cparen ASTExpression.ASTParentheses c
        (st1.chars.length + 1 - st1.position) st1 [] := by
  unfold parseParenthesesWith
  rw [h]

theorem parseAssignmentAfterEq_of_intErr {interior : ParseInput → PRes}
    {initialization : Bool} {firstChar : Option ParsedChar} {vn : String}
    {st5 st7 : ParseInput} {e : String}
    (h : interior (skipSpacesAndNewlines st5) = (.error e, st7)) :
    parseAssignmentAfterEq interior initialization firstChar vn st5 = (.error e, st7) := by
  simp only [parseAssignmentAfterEq]
  rw [h]

theorem parseAssignmentAfterEq_of_intOk {interior : ParseInput → PRes}
    {initialization : Bool} {firstChar : Option ParsedChar} {vn : String}
    {st5 st7 : ParseInput} {v : ASTNode}
    (h : interior (skipSpacesAndNewlines st5) = (.ok v, st7)) :
    parseAssignmentAfterEq interior initialization firstChar vn st5 =
      parseAssignmentMake initialization firstChar vn v st7 := by
  simp only [parseAssignmentAfterEq]
  rw [h]

theorem parseAssignmentAfterName_of_eqErr {interior : ParseInput → PRes}
    {initialization : Bool} {firstChar : Option ParsedChar} {vn : String}
    {st3 st5 : ParseInput} {e : String}
    (h : skipChar (skipSpacesAndNewlines st3) '=' = (.error e, st5)) :
    parseAssignmentAfterName interior initialization firstChar vn st3 = (.error e, st5) := by
  simp only [parseAssignmentAfterName]
  rw [h]

theorem parseAssignmentAfterName_of_eqOk {interior : ParseInput → PRes}
    {initialization : Bool} {firstChar : Option ParsedChar} {vn : String}
    {st3 st5 : ParseInput} {u : Unit}
    (h : skipChar (skipSpacesAndNewlines st3) '=' = (.ok u, st5)) :
    parseAssignmentAfterName interior initialization firstChar vn st3 =
      parseAssignmentAfterEq interior initialization firstChar vn st5 := by
  simp only [parseAssignmentAfterName]
  rw [h]

theorem parseAssignmentFinish_of_nameErr {interior : ParseInput → PRes}
    {initialization : Bool} {firstChar : Option ParsedChar}
    {st2 st3 : ParseInput} {e : String}
    (h : parseName st2 = (.error e, st3)) :
    parseAssignmentFinish interior initialization firstChar st2 = (.error e, st3) := by
  unfold parseAssignmentFinish
  rw [h]

theorem parseAssignmentFinish_of_nameOk {interior : ParseInput → PRes}
    {initialization : Bool} {firstChar : Option ParsedChar}
    {st2 st3 : ParseInput} {vn : String}
    (h : parseName st2 = (.ok vn, st3)) :
    parseAssignmentFinish interior initialization firstChar st2 =
      parseAssignmentAfterName interior initialization firstChar vn st3 := by
  unfold parseAssignmentFinish
  rw [h]

theorem parseAssignmentNoKeyword_of_err {interior : ParseInput → PRes}
    {st2 : ParseInput} {e : String}
    (h : getNextCharResult st2 = .error e) :
    parseAssignmentNoKeyword interior st2 = (.error e, st2) := by
  unfold parseAssignmentNoKeyword
  rw [h]

theorem parseAssignmentNoKeyword_of_ok {interior : ParseInput → PRes}
    {st2 : ParseInput} {pc : ParsedChar}
    (h : getNextCharResult st2 = .ok pc) :
    parseAssignmentNoKeyword interior st2 =
      parseAssignmentFinish interior false (some pc) st2 := by
  unfold parseAssignmentNoKeyword
  rw [h]

theorem parseAssignmentWith_of_true {interior : ParseInput → PRes} {st : ParseInput}
    (h : matchWord st "let" = true) :
    parseAssignmentWith interior st =
      parseAssignmentFinish interior true (getNextChar st)
        (skipSpacesAndNewlines ((skipString st "let").2)) := by
  simp only [parseAssignmentWith]
  rw [h]
  simp

theorem parseAssignmentWith_of_false {interior : ParseInput → PRes} {st : ParseInput}
    (h : matchWord st "let" = false) :
    parseAssignmentWith interior st =
      parseAssignmentNoKeyword interior
        (skipSpacesAndNewlines ((skipString st "let").2)) := by
  simp only [parseAssignmentWith]
  rw [h]
  simp

theorem parseFunctionWith_of_nextErr {interior : ParseInput → PRes}
    {st : ParseInput} {e : String}
    (h : getNextCharResult st = .error e) :
    parseFunctionWith interior st = (.error e, st) := by
  unfold parseFunctionWith
  rw [h]

theorem parseFunctionWith_of_nextOk {interior : ParseInput → PRes}
    {st : ParseInput} {fc : ParsedChar}
    (h : getNextCharResult st = .ok fc) :
    parseFunctionWith interior st = parseFunctionAfterFirst interior fc st := by
  unfold parseFunctionWith
  rw [h]

theorem parseFunctionAfterFirst_of_parenErr {interior : ParseInput → PRes}
    {fc : ParsedChar} {st st1 : ParseInput} {e : String}
    (h : parseParenthesesWith interior st = (.error e, st1)) :
    parseFunctionAfterFirst interior fc st = (.error e, st1) := by
  unfold parseFunctionAfterFirst
  rw [h]

theorem parseFunctionAfterFirst_of_parenOk {interior : ParseInput → PRes}
    {fc : ParsedChar} {st st1 : ParseInput} {params : ASTNode}
    (h : parseParenthesesWith interior st = (.ok params, st1)) :
    parseFunctionAfterFirst interior fc st =
      parseFunctionAfterParams interior fc params st1 := by
  unfold parseFunctionAfterFirst
  rw [h]

theorem parseFunctionAfterParams_of_scopeErr {interior : ParseInput → PRes}
    {fc : ParsedChar} {params : ASTNode} {st1 st3 : ParseInput} {e : String}
    (h : parseScopeWith interior (skipSpacesAndNewlines st1) = (.error e, st3)) :
    parseFunctionAfterParams interior fc params st1 = (.error e, st3) := by
  simp only [parseFunctionAfterParams]
  rw [h]

theorem parseFunctionAfterParams_of_scopeOk {interior : ParseInput → PRes}
    {fc : ParsedChar} {params : ASTNode} {st1 st3 : ParseInput} {body : ASTNode}
    (h : parseScopeWith interior (skipSpacesAndNewlines st1) = (.ok body, st3)) :
    parseFunctionAfterParams interior fc params st1 =
      (.ok (.mk (.ASTFunction params body) ⟨fc.line, fc.column⟩), st3) := by
  simp only [parseFunctionAfterParams]
  rw [h]

/-! Buffer preservation through every composite rule. -/

theorem encloseFinish_chars (closeC : Char) (build : List ASTNode → ASTExpression)
    (sc : ParsedChar) (e : String) (acc : List ASTNode) (st2 : ParseInput) :
    ((encloseFinish closeC build sc e acc st2).2).chars = st2.chars := by
  rcases hs : skipChar st2 closeC with ⟨r2, st3⟩
  have hch3 : st3.chars = st2.chars := by
    rcases r2 with e2 | u
    · rw [(skipChar_error hs).1]
    · rw [(skipChar_ok hs).2.1]
  rcases r2 with e2 | u
  · rw [encloseFinish_of_err hs]
    exact hch3
  · rw [encloseFinish_of_ok hs]
    exact hch3

theorem encloseLoopF_chars (interior : ParseInput → PRes) (closeC : Char)
    (build : List ASTNode → ASTExpression) (sc : ParsedChar)
    (hIc : ∀ i, ((interior i).2).chars = i.chars) :
    ∀ (m : Nat) (st : ParseInput) (acc : List ASTNode),
      ((encloseLoopF interior closeC build sc m st acc).2).chars = st.chars := by
  intro m
  induction m with
  | zero => intro st acc; rfl
  | succ k ih =>
    intro st acc
    rcases hi : interior (skipSpacesAndNewlines st) with ⟨r, st2⟩
    have hch2 : st2.chars = st.chars := by
      have h2 := hIc (skipSpacesAndNewlines st)
      rw [hi, skipSpacesAndNewlines_chars] at h2
      exact h2
    rcases r with e | x
    · rw [encloseLoopF_of_err hi, encloseFinish_chars]
      exact hch2
    · rw [encloseLoopF_of_ok hi, ih]
      exact hch2

theorem parseScopeWith_chars (interior : ParseInput → PRes)
    (hIc : ∀ i, ((interior i).2).chars = i.chars) (st : ParseInput) :
    ((parseScopeWith interior st).2).chars = st.chars := by
  rcases hp : popChar st obrace with ⟨r, st1⟩
  have hch1 : st1.chars = st.chars := by
    rcases r with e | c
    · rw [(popChar_error hp).1]
    · rw [(popChar_ok hp).2.2.1]
  rcases r with e | c
  · rw [parseScopeWith_of_popErr hp]
    exact hch1
  · rw [parseScopeWith_of_popOk hp, encloseLoopF_chars interior cbrace ASTExpression.ASTScope c hIc]
    exact hch1

theorem parseParenthesesWith_chars (interior : ParseInput → PRes)
    (hIc : ∀ i, ((interior i).2).chars = i.chars) (st : ParseInput) :
    ((parseParenthesesWith interior st).2).chars = st.chars := by
  rcases hp : popChar st oparen with ⟨r, st1⟩
  have hch1 : st1.chars = st.chars := by
    rcases r with e | c
    · rw [(popChar_error hp).1]
    · rw [(popChar_ok hp).2.2.1]
  rcases r with e | c
  · rw [parseParenthesesWith_of_popErr hp]
    exact hch1
  · rw [parseParenthesesWith_of_popOk hp,
      encloseLoopF_chars interior cparen ASTExpression.ASTParentheses c hIc]
    exact hch1

theorem parseAssignmentMake_chars (initialization : Bool) (firstChar : Option ParsedChar)
    (vn : String) (vv : ASTNode) (st7 : ParseInput) :
    ((parseAssignmentMake initialization firstChar vn vv st7).2).chars = st7.chars := by
  unfold parseAssignmentMake
  rcases firstChar with _ | fc
  · rfl
  · cases initialization <;> rfl

theorem parseAssignmentAfterEq_chars (interior : ParseInput → PRes)
    (hIc : ∀ i, ((interior i).2).chars = i.chars)
    (initialization : Bool) (firstChar : Option ParsedChar) (vn : String)
    (st5 : ParseInput) :
    ((parseAssignmentAfterEq interior initialization firstChar vn st5).2).chars = st5.chars := by
  rcases hi : interior (skipSpacesAndNewlines st5) with ⟨r, st7⟩
  have hch7 : st7.chars = st5.chars := by
    have h2 := hIc (skipSpacesAndNewlines st5)
    rw [hi, skipSpacesAndNewlines_chars] at h2
    exact h2
  rcases r with e | v
  · rw [parseAssignmentAfterEq_of_intErr hi]
    exact hch7
  · rw [parseAssignmentAfterEq_of_intOk hi, parseAssignmentMake_chars]
    exact hch7

theorem parseAssignmentAfterName_chars (interior : ParseInput → PRes)
    (hIc : ∀ i, ((interior i).2).chars = i.chars)
    (initialization : Bool) (firstChar : Option ParsedChar) (vn : String)
    (st3 : ParseInput) :
    ((parseAssignmentAfterName interior initialization firstChar vn st3).2).chars = st3.chars := by
  rcases hs : skipChar (skipSpacesAndNewlines st3) '=' with ⟨r, st5⟩
  have hch5 : st5.chars = st3.chars := by
    have h2 := skipChar_chars (skipSpacesAndNewlines st3) '='
    rw [hs, skipSpacesAndNewlines_chars] at h2
    exact h2
  rcases r with e | u
  · rw [parseAssignmentAfterName_of_eqErr hs]
    exact hch5
  · rw [parseAssignmentAfterName_of_eqOk hs,
      parseAssignmentAfterEq_chars interior hIc]
    exact hch5

theorem parseAssignmentFinish_chars (interior : ParseInput → PRes)
    (hIc : ∀ i, ((interior i).2).chars = i.chars)
    (initialization : Bool) (firstChar : Option ParsedChar) (st2 : ParseInput) :
    ((parseAssignmentFinish interior initialization firstChar st2).2).chars = st2.chars := by
  rcases hn : parseName st2 with ⟨r, st3⟩
  have hch3 : st3.chars = st2.chars := by
    have h2 := parseName_chars st2
    rw [hn] at h2
    exact h2
  rcases r with e | vn
  · rw [parseAssignmentFinish_of_nameErr hn]
    exact hch3
  · rw [parseAssignmentFinish_of_nameOk hn,
      parseAssignmentAfterName_chars interior hIc]
    exact hch3

theorem parseAssignmentNoKeyword_chars (interior : ParseInput → PRes)
    (hIc : ∀ i, ((interior i).2).chars = i.chars) (st2 : ParseInput) :
    ((parseAssignmentNoKeyword interior st2).2).chars = st2.chars := by
  rcases hg : getNextCharResult st2 with e | pc
  · rw [parseAssignmentNoKeyword_of_err hg]
  · rw [parseAssignmentNoKeyword_of_ok hg,
      parseAssignmentFinish_chars interior hIc]

theorem parseAssignmentWith_chars (interior : ParseInput → PRes)
    (hIc : ∀ i, ((interior i).2).chars = i.chars) (st : ParseInput) :
    ((parseAssignmentWith interior st).2).chars = st.chars := by
  have hkey : (skipSpacesAndNewlines ((skipString st "let").2)).chars = st.chars := by
    rw [skipSpacesAndNewlines_chars, skipString_chars]
  rcases hm : matchWord st "let" with _ | _
  · rw [parseAssignmentWith_of_false hm,
      parseAssignmentNoKeyword_chars interior hIc]
    exact hkey
  · rw [parseAssignmentWith_of_true hm,
      parseAssignmentFinish_chars interior hIc]
    exact hkey

theorem parseFunctionAfterParams_chars (interior : ParseInput → PRes)
    (hIc : ∀ i, ((interior i).2).chars = i.chars)
    (fc : ParsedChar) (params : ASTNode) (st1 : ParseInput) :
    ((parseFunctionAfterParams interior fc params st1).2).chars = st1.chars := by
  rcases hsc : parseScopeWith interior (skipSpacesAndNewlines st1) with ⟨r, st3⟩
  have hch3 : st3.chars = st1.chars := by
    have h2 := parseScopeWith_chars interior hIc (skipSpacesAndNewlines st1)
    rw [hsc, skipSpacesAndNewlines_chars] at h2
    exact h2
  rcases r with e | body
  · rw [parseFunctionAfterParams_of_scopeErr hsc]
    exact hch3
  · rw [parseFunctionAfterParams_of_scopeOk hsc]
    exact hch3

theorem parseFunctionWith_chars (interior : ParseInput → PRes)
    (hIc : ∀ i, ((interior i).2).chars = i.chars) (st : ParseInput) :
    ((parseFunctionWith interior st).2).chars = st.chars := by
  rcases hg : getNextCharResult st with e | fc
  · rw [parseFunctionWith_of_nextErr hg]
  · rw [parseFunctionWith_of_nextOk hg]
    rcases hp : parseParenthesesWith interior st with ⟨r, st1⟩
    have hch1 : st1.chars = st.chars := by
      have h2 := parseParenthesesWith_chars interior hIc st
      rw [hp] at h2
      exact h2
    rcases r with e | params
    · rw [parseFunctionAfterFirst_of_parenErr hp]
      exact hch1
    · rw [parseFunctionAfterFirst_of_parenOk hp,
        parseFunctionAfterParams_chars interior hIc]
      exact hch1

theorem tryParsersGo_chars :
    ∀ (ps : List (ParseInput → PRes)) (input : ParseInput) (lastErr : String) (sp : Nat),
      (∀ p ∈ ps, ∀ i, ((p i).2).chars = i.chars) →
      ((tryParsersGo sp ps input lastErr).2).chars = input.chars := by
  intro ps
  induction ps with
  | nil => intro input lastErr sp hP; rfl
  | cons p rest ih =>
    intro input lastErr sp hP
    rcases hp : p (skipSpacesAndNewlines input) with ⟨r, st2⟩
    have hch2 : st2.chars = input.chars := by
      have h2 := hP p (by simp) (skipSpacesAndNewlines input)
      rw [hp, skipSpacesAndNewlines_chars] at h2
      exact h2
    rcases r with e | x
    · rw [tryParsersGo_cons_error hp,
        ih (loadSavePoint st2 sp) e sp (fun q hq i => hP q (by simp [hq]) i)]
      show st2.chars = input.chars
      exact hch2
    · rw [tryParsersGo_cons_ok hp]
      exact hch2

theorem mainParserF_chars : ∀ (n : Nat) (st : ParseInput),
    ((mainParserF n st).2).chars = st.chars := by
  intro n
  induction n with
  | zero => intro st; rfl
  | succ k ih =>
    intro st
    show ((tryParsersWithList _ st).2).chars = st.chars
    unfold tryParsersWithList
    apply tryParsersGo_chars
    intro p hp i
    simp only [List.mem_cons, List.not_mem_nil, or_false] at hp
    rcases hp with h | h | h | h | h | h | h
    · rw [h]; exact parseFunctionWith_chars _ ih i
    · rw [h]; exact parseAssignmentWith_chars _ ih i
    · rw [h]; exact parseStringLiteral_chars i
    · rw [h]; exact parseInteger_chars i
    · rw [h]; exact parseVariableRef_chars i
    · rw [h]; exact parseScopeWith_chars _ ih i
    · rw [h]; exact parseParenthesesWith_chars _ ih i

/-! The recursion invariant: every rule that succeeds consumes at least
one character and stays inside the buffer, and every error the main
parser returns carries the message of its last candidate, the
parenthesis rule. -/

theorem mainParserF_succ (n : Nat) (st : ParseInput) :
    mainParserF (n + 1) st = tryParsersWithList (mainParsers n) st := rfl

theorem mainParsers_chars (k : Nat) :
    ∀ p ∈ mainParsers k, ∀ i, ((p i).2).chars = i.chars := by
  intro p hp i
  simp only [mainParsers, List.mem_cons, List.not_mem_nil, or_false] at hp
  rcases hp with h | h | h | h | h | h | h
  · rw [h]; exact parseFunctionWith_chars _ (mainParserF_chars k) i
  · rw [h]; exact parseAssignmentWith_chars _ (mainParserF_chars k) i
  · rw [h]; exact parseStringLiteral_chars i
  · rw [h]; exact parseInteger_chars i
  · rw [h]; exact parseVariableRef_chars i
  · rw [h]; exact parseScopeWith_chars _ (mainParserF_chars k) i
  · rw [h]; exact parseParenthesesWith_chars _ (mainParserF_chars k) i

theorem mainParserF_err_restore : ∀ (n : Nat) (st : ParseInput) (e : String)
    (out : ParseInput), mainParserF n st = (.error e, out) → out = st := by
  intro n st e out h
  cases n with
  | zero =>
    simp only [mainParserF] at h
    injection h with h1 h2
    exact h2.symm
  | succ k =>
    have h' : tryParsersGo st.position (mainParsers k) st "" = (.error e, out) := h
    exact (tryParsersGo_error_cases (mainParsers k) st "" e out (mainParsers_chars k) h').1

theorem encloseLoopF_inv (interior : ParseInput → PRes) (n : Nat) (closeC : Char)
    (build : List ASTNode → ASTExpression) (sc : ParsedChar)
    (hIok : ∀ i, i.chars.length - i.position < n → ∀ v out, interior i = (.ok v, out) →
      i.position < out.position ∧ out.position ≤ i.chars.length)
    (hIerr : ∀ i, i.chars.length - i.position < n → ∀ e out,
      interior i = (.error e, out) → PErrShape e)
    (hIrest : ∀ i e out, interior i = (.error e, out) → out = i)
    (hIc : ∀ i, ((interior i).2).chars = i.chars) :
    ∀ (m : Nat) (st : ParseInput) (acc : List ASTNode),
      st.chars.length - st.position < m → st.chars.length - st.position < n →
      (∀ v out, encloseLoopF interior closeC build sc m st acc = (.ok v, out) →
        st.position < out.position ∧ out.position ≤ st.chars.length) ∧
      (∀ e out, encloseLoopF interior closeC build sc m st acc = (.error e, out) →
        PErrShape e) := by
  intro m
  induction m with
  | zero =>
    intro st acc hm hn
    exact absurd hm (by omega)
  | succ k ih =>
    intro st acc hm hn
    have h1c : (skipSpacesAndNewlines st).chars = st.chars := skipSpacesAndNewlines_chars st
    have h1p : st.position ≤ (skipSpacesAndNewlines st).position := skipSpacesAndNewlines_le st
    have hrem1 : (skipSpacesAndNewlines st).chars.length - (skipSpacesAndNewlines st).position ≤
        st.chars.length - st.position := by
      rw [h1c]
      omega
    rcases hi : interior (skipSpacesAndNewlines st) with ⟨r, st2⟩
    have hch2 : st2.chars = st.chars := by
      have h2 := hIc (skipSpacesAndNewlines st)
      rw [hi, h1c] at h2
      exact h2
    rcases r with e | x
    · have hrest : st2 = skipSpacesAndNewlines st := hIrest _ _ _ hi
      have hshape : PErrShape e :=
        hIerr (skipSpacesAndNewlines st) (lt_of_le_of_lt hrem1 hn) e st2 hi
      rw [encloseLoopF_of_err hi]
      constructor
      · intro v out h
        rcases hs : skipChar st2 closeC with ⟨r2, st3⟩
        rcases r2 with e2 | u
        · rw [encloseFinish_of_err hs] at h
          exact absurd h (by simp)
        · rw [encloseFinish_of_ok hs] at h
          obtain ⟨hg3, ho3, hlt3⟩ := skipChar_ok hs
          injection h with h1 h2'
          have hp3 : st3.position = st2.position + 1 := by rw [ho3]
          have hps2 : st2.position = (skipSpacesAndNewlines st).position := by rw [hrest]
          have hlen2 : st2.chars.length = st.chars.length := by rw [hch2]
          rw [← h2']
          constructor
          · omega
          · omega
      · intro e2 out h
        rcases hs : skipChar st2 closeC with ⟨r2, st3⟩
        rcases r2 with e3 | u
        · rw [encloseFinish_of_err hs] at h
          injection h with h1 h2'
          injection h1 with h1
          rw [← h1]
          exact hshape
        · rw [encloseFinish_of_ok hs] at h
          exact absurd h (by simp)
    · obtain ⟨hadv, hle⟩ := hIok (skipSpacesAndNewlines st) (lt_of_le_of_lt hrem1 hn) x st2 hi
      rw [encloseLoopF_of_ok hi]
      have hlen1 : (skipSpacesAndNewlines st).chars.length = st.chars.length := by rw [h1c]
      have hlen2 : st2.chars.length = st.chars.length := by rw [hch2]
      have hrek : st2.chars.length - st2.position < k := by omega
      have hren : st2.chars.length - st2.position < n := by omega
      obtain ⟨iok, ierr⟩ := ih st2 (acc ++ [x]) hrek hren
      constructor
      · intro v out h
        obtain ⟨ha, hb⟩ := iok v out h
        constructor
        · omega
        · omega
      · exact ierr

theorem parseParenthesesWith_inv (interior : ParseInput → PRes) (n : Nat)
    (hIok : ∀ i, i.chars.length - i.position < n → ∀ v out, interior i = (.ok v, out) →
      i.position < out.position ∧ out.position ≤ i.chars.length)
    (hIerr : ∀ i, i.chars.length - i.position < n → ∀ e out,
      interior i = (.error e, out) → PErrShape e)
    (hIrest : ∀ i e out, interior i = (.error e, out) → out = i)
    (hIc : ∀ i, ((interior i).2).chars = i.chars) :
    ∀ st : ParseInput, st.chars.length - st.position < n + 1 →
      (∀ v out, parseParenthesesWith interior st = (.ok v, out) →
        st.position < out.position ∧ out.position ≤ st.chars.length) ∧
      (∀ e out, parseParenthesesWith interior st = (.error e, out) → PErrShape e) := by
  intro st hrem
  rcases hp : popChar st oparen with ⟨r, st1⟩
  rcases r with e | c
  · rw [parseParenthesesWith_of_popErr hp]
    constructor
    · intro v out h
      exact absurd h (by simp)
    · intro e2 out h
      injection h with h1 h2
      injection h1 with h1
      obtain ⟨-, hcase⟩ := popChar_error hp
      rw [← h1]
      rcases hcase with ⟨pc, _, _, he⟩ | ⟨_, he⟩
      · exact .inl ⟨pc, he⟩
      · exact .inr he
  · obtain ⟨hg, hc, ho, hlt⟩ := popChar_ok hp
    rw [parseParenthesesWith_of_popOk hp]
    have hp1 : st1.position = st.position + 1 := by rw [ho]
    have hc1 : st1.chars = st.chars := by rw [ho]
    have hl1 : st1.chars.length = st.chars.length := by rw [hc1]
    have hm : st1.chars.length - st1.position < st1.chars.length + 1 - st1.position := by
      omega
    have hn1 : st1.chars.length - st1.position < n := by omega
    obtain ⟨iok, ierr⟩ := encloseLoopF_inv interior n cparen ASTExpression.ASTParentheses c
      hIok hIerr hIrest hIc (st1.chars.length + 1 - st1.position) st1 [] hm hn1
    constructor
    · intro v out h
      obtain ⟨ha, hb⟩ := iok v out h
      constructor
      · omega
      · omega
    · exact ierr

theorem parseScopeWith_consumes_inv (interior : ParseInput → PRes) (n : Nat)
    (hIok : ∀ i, i.chars.length - i.position < n → ∀ v out, interior i = (.ok v, out) →
      i.position < out.position ∧ out.position ≤ i.chars.length)
    (hIerr : ∀ i, i.chars.length - i.position < n → ∀ e out,
      interior i = (.error e, out) → PErrShape e)
    (hIrest : ∀ i e out, interior i = (.error e, out) → out = i)
    (hIc : ∀ i, ((interior i).2).chars = i.chars) :
    ∀ st : ParseInput, st.chars.length - st.position < n + 1 →
      ∀ v out, parseScopeWith interior st = (.ok v, out) →
        st.position < out.position ∧ out.position ≤ st.chars.length := by
  intro st hrem v out h
  rcases hp : popChar st obrace with ⟨r, st1⟩
  rcases r with e | c
  · rw [parseScopeWith_of_popErr hp] at h
    exact absurd h (by simp)
  · obtain ⟨hg, hc, ho, hlt⟩ := popChar_ok hp
    rw [parseScopeWith_of_popOk hp] at h
    have hp1 : st1.position = st.position + 1 := by rw [ho]
    have hc1 : st1.chars = st.chars := by rw [ho]
    have hl1 : st1.chars.length = st.chars.length := by rw [hc1]
    have hm : st1.chars.length - st1.position < st1.chars.length + 1 - st1.position := by
      omega
    have hn1 : st1.chars.length - st1.position < n := by omega
    obtain ⟨ha, hb⟩ := (encloseLoopF_inv interior n cbrace ASTExpression.ASTScope c
      hIok hIerr hIrest hIc (st1.chars.length + 1 - st1.position) st1 [] hm hn1).1 v out h
    constructor
    · omega
    · omega

theorem parseAssignmentFinish_consumes_inv (interior : ParseInput → PRes) (n : Nat)
    (hIok : ∀ i, i.chars.length - i.position < n → ∀ v out, interior i = (.ok v, out) →
      i.position < out.position ∧ out.position ≤ i.chars.length)
    (initialization : Bool) (firstChar : Option ParsedChar) :
    ∀ st2 : ParseInput, st2.chars.length - st2.position < n + 1 →
      ∀ v out, parseAssignmentFinish interior initialization firstChar st2 = (.ok v, out) →
        st2.position < out.position ∧ out.position ≤ st2.chars.length := by
  intro st2 hrem v out h
  rcases hn : parseName st2 with ⟨r, st3⟩
  rcases r with e | vn
  · rw [parseAssignmentFinish_of_nameErr hn] at h
    exact absurd h (by simp)
  · rw [parseAssignmentFinish_of_nameOk hn] at h
    obtain ⟨hn1, hn2⟩ := parseName_consumes hn
    have hc3 : st3.chars = st2.chars := by
      have hx := parseName_chars st2
      rw [hn] at hx
      exact hx
    rcases hs : skipChar (skipSpacesAndNewlines st3) '=' with ⟨r2, st5⟩
    rcases r2 with e2 | u
    · rw [parseAssignmentAfterName_of_eqErr hs] at h
      exact absurd h (by simp)
    · rw [parseAssignmentAfterName_of_eqOk hs] at h
      obtain ⟨hg5, ho5, hlt5⟩ := skipChar_ok hs
      have hp5 : st5.position = (skipSpacesAndNewlines st3).position + 1 := by rw [ho5]
      have hc5 : st5.chars = st2.chars := by
        rw [ho5]
        show (skipSpacesAndNewlines st3).chars = st2.chars
        rw [skipSpacesAndNewlines_chars, hc3]
      have hws3 : st3.position ≤ (skipSpacesAndNewlines st3).position :=
        skipSpacesAndNewlines_le st3
      have hl3 : (skipSpacesAndNewlines st3).chars.length = st2.chars.length := by
        rw [skipSpacesAndNewlines_chars, hc3]
      rcases hi : interior (skipSpacesAndNewlines st5) with ⟨r3, st7⟩
      rcases r3 with e3 | vv
      · rw [parseAssignmentAfterEq_of_intErr hi] at h
        exact absurd h (by simp)
      · rw [parseAssignmentAfterEq_of_intOk hi] at h
        have hout : out = st7 := by
          unfold parseAssignmentMake at h
          rcases firstChar with _ | fc
          · exact absurd h (by simp)
          · rcases initialization with _ | _
            · simp only [Bool.false_eq_true, if_false] at h
              injection h with h1 h2
              exact h2.symm
            · simp only [if_true] at h
              injection h with h1 h2
              exact h2.symm
        have hws5 : st5.position ≤ (skipSpacesAndNewlines st5).position :=
          skipSpacesAndNewlines_le st5
        have hc6 : (skipSpacesAndNewlines st5).chars = st2.chars := by
          rw [skipSpacesAndNewlines_chars, hc5]
        have hrem6 : (skipSpacesAndNewlines st5).chars.length -
            (skipSpacesAndNewlines st5).position < n := by
          rw [hc6]
          omega
        obtain ⟨hi1, hi2⟩ := hIok (skipSpacesAndNewlines st5) hrem6 vv st7 hi
        rw [hc6] at hi2
        constructor
        · rw [hout]
          omega
        · rw [hout]
          exact hi2

theorem parseAssignmentWith_consumes_inv (interior : ParseInput → PRes) (n : Nat)
    (hIok : ∀ i, i.chars.length - i.position < n → ∀ v out, interior i = (.ok v, out) →
      i.position < out.position ∧ out.position ≤ i.chars.length) :
    ∀ st : ParseInput, st.chars.length - st.position < n + 1 →
      ∀ v out, parseAssignmentWith interior st = (.ok v, out) →
        st.position < out.position ∧ out.position ≤ st.chars.length := by
  intro st hrem v out h
  have hsp : st.position ≤ ((skipString st "let").2).position := skipString_position_ge st "let"
  have hp2 : st.position ≤ (skipSpacesAndNewlines ((skipString st "let").2)).position :=
    le_trans hsp (skipSpacesAndNewlines_le _)
  have hc2 : (skipSpacesAndNewlines ((skipString st "let").2)).chars = st.chars := by
    rw [skipSpacesAndNewlines_chars, skipString_chars]
  have hrem2 : (skipSpacesAndNewlines ((skipString st "let").2)).chars.length -
      (skipSpacesAndNewlines ((skipString st "let").2)).position < n + 1 := by
    rw [hc2]
    omega
  rcases hm : matchWord st "let" with _ | _
  · rw [parseAssignmentWith_of_false hm] at h
    rcases hg : getNextCharResult (skipSpacesAndNewlines ((skipString st "let").2)) with e | pc
    · rw [parseAssignmentNoKeyword_of_err hg] at h
      exact absurd h (by simp)
    · rw [parseAssignmentNoKeyword_of_ok hg] at h
      obtain ⟨h1, h2⟩ := parseAssignmentFinish_consumes_inv interior n hIok false (some pc)
        (skipSpacesAndNewlines ((skipString st "let").2)) hrem2 v out h
      rw [hc2] at h2
      constructor
      · omega
      · exact h2
  · rw [parseAssignmentWith_of_true hm] at h
    obtain ⟨h1, h2⟩ := parseAssignmentFinish_consumes_inv interior n hIok true (getNextChar st)
      (skipSpacesAndNewlines ((skipString st "let").2)) hrem2 v out h
    rw [hc2] at h2
    constructor
    · omega
    · exact h2

theorem parseFunctionWith_consumes_inv (interior : ParseInput → PRes) (n : Nat)
    (hIok : ∀ i, i.chars.length - i.position < n → ∀ v out, interior i = (.ok v, out) →
      i.position < out.position ∧ out.position ≤ i.chars.length)
    (hIerr : ∀ i, i.chars.length - i.position < n → ∀ e out,
      interior i = (.error e, out) → PErrShape e)
    (hIrest : ∀ i e out, interior i = (.error e, out) → out = i)
    (hIc : ∀ i, ((interior i).2).chars = i.chars) :
    ∀ st : ParseInput, st.chars.length - st.position < n + 1 →
      ∀ v out, parseFunctionWith interior st = (.ok v, out) →
        st.position < out.position ∧ out.position ≤ st.chars.length := by
  intro st hrem v out h
  rcases hg : getNextCharResult st with e | fc
  · rw [parseFunctionWith_of_nextErr hg] at h
    exact absurd h (by simp)
  · rw [parseFunctionWith_of_nextOk hg] at h
    rcases hp : parseParenthesesWith interior st with ⟨r, st1⟩
    rcases r with e | params
    · rw [parseFunctionAfterFirst_of_parenErr hp] at h
      exact absurd h (by simp)
    · rw [parseFunctionAfterFirst_of_parenOk hp] at h
      obtain ⟨hp1, hp2⟩ := (parseParenthesesWith_inv interior n hIok hIerr hIrest hIc st hrem).1
        params st1 hp
      have hc1 : st1.chars = st.chars := by
        have hx := parseParenthesesWith_chars interior hIc st
        rw [hp] at hx
        exact hx
      rcases hsc2 : parseScopeWith interior (skipSpacesAndNewlines st1) with ⟨r2, st3⟩
      rcases r2 with e2 | body
      · rw [parseFunctionAfterParams_of_scopeErr hsc2] at h
        exact absurd h (by simp)
      · rw [parseFunctionAfterParams_of_scopeOk hsc2] at h
        have hout : out = st3 := by
          injection h with h1 h2
          exact h2.symm
        have hws1 : st1.position ≤ (skipSpacesAndNewlines st1).position :=
          skipSpacesAndNewlines_le st1
        have hcw : (skipSpacesAndNewlines st1).chars = st.chars := by
          rw [skipSpacesAndNewlines_chars, hc1]
        have hremw : (skipSpacesAndNewlines st1).chars.length -
            (skipSpacesAndNewlines st1).position < n + 1 := by
          rw [hcw]
          omega
        obtain ⟨hs1, hs2⟩ := parseScopeWith_consumes_inv interior n hIok hIerr hIrest hIc
          (skipSpacesAndNewlines st1) hremw body st3 hsc2
        rw [hcw] at hs2
        constructor
        · rw [hout]
          omega
        · rw [hout]
          exact hs2

theorem mainParserF_inv : ∀ (n : Nat) (st : ParseInput),
    st.chars.length - st.position < n →
    (∀ v out, mainParserF n st = (.ok v, out) →
      st.position < out.position ∧ out.position ≤ st.chars.length) ∧
    (∀ e out, mainParserF n st = (.error e, out) → PErrShape e) := by
  intro n
  induction n with
  | zero =>
    intro st h
    exact absurd h (by omega)
  | succ k ih =>
    intro st hrem
    have hIok : ∀ i : ParseInput, i.chars.length - i.position < k →
        ∀ v out, mainParserF k i = (.ok v, out) →
          i.position < out.position ∧ out.position ≤ i.chars.length :=
      fun i hri v out h => (ih i hri).1 v out h
    have hIerr : ∀ i : ParseInput, i.chars.length - i.position < k →
        ∀ e out, mainParserF k i = (.error e, out) → PErrShape e :=
      fun i hri e out h => (ih i hri).2 e out h
    have hIrest : ∀ (i : ParseInput) (e : String) (out : ParseInput),
        mainParserF k i = (.error e, out) → out = i :=
      fun i e out h => mainParserF_err_restore k i e out h
    have hIc : ∀ i : ParseInput, ((mainParserF k i).2).chars = i.chars :=
      mainParserF_chars k
    have hAp : st.position ≤ (skipSpacesAndNewlines st).position :=
      skipSpacesAndNewlines_le st
    have hAc : (skipSpacesAndNewlines st).chars = st.chars := skipSpacesAndNewlines_chars st
    have hremA : (skipSpacesAndNewlines st).chars.length -
        (skipSpacesAndNewlines st).position < k + 1 := by
      rw [hAc]
      omega
    constructor
    · intro v out h
      have h' : tryParsersGo st.position (mainParsers k) st "" = (.ok v, out) := h
      obtain ⟨kk, hkk, hpre, hsucc⟩ :=
        tryParsersGo_ok_cases (mainParsers k) st "" v out (mainParsers_chars k) h'
      have hkk7 : kk < 7 := by simpa [mainParsers] using hkk
      have hfin : (skipSpacesAndNewlines st).position < out.position ∧
          out.position ≤ (skipSpacesAndNewlines st).chars.length := by
        rcases kk with _ | _ | _ | _ | _ | _ | _ | kk
        · exact parseFunctionWith_consumes_inv (mainParserF k) k hIok hIerr hIrest hIc
            (skipSpacesAndNewlines st) hremA v out hsucc
        · exact parseAssignmentWith_consumes_inv (mainParserF k) k hIok
            (skipSpacesAndNewlines st) hremA v out hsucc
        · exact parseStringLiteral_consumes hsucc
        · exact parseInteger_consumes hsucc
        · exact parseVariableRef_consumes hsucc
        · exact parseScopeWith_consumes_inv (mainParserF k) k hIok hIerr hIrest hIc
            (skipSpacesAndNewlines st) hremA v out hsucc
        · exact (parseParenthesesWith_inv (mainParserF k) k hIok hIerr hIrest hIc
            (skipSpacesAndNewlines st) hremA).1 v out hsucc
        · exact absurd hkk7 (by omega)
      obtain ⟨hf1, hf2⟩ := hfin
      rw [hAc] at hf2
      constructor
      · omega
      · exact hf2
    · intro e out h
      have h' : tryParsersGo st.position (mainParsers k) st "" = (.error e, out) := h
      obtain ⟨hout, hall, hlast⟩ :=
        tryParsersGo_error_cases (mainParsers k) st "" e out (mainParsers_chars k) h'
      rcases hlast with ⟨hnil, -⟩ | ⟨hne, o, ho⟩
      · exact absurd hnil (by simp [mainParsers])
      · have hgl : (mainParsers k).getLast hne = parseParenthesesWith (mainParserF k) := rfl
        rw [hgl] at ho
        exact (parseParenthesesWith_inv (mainParserF k) k hIok hIerr hIrest hIc
          (skipSpacesAndNewlines st) hremA).2 e o ho

/-! From the invariant to the driver loop: every surfaced error message
matches the documented wire format. -/

theorem driverLoopF_error_shape : ∀ (m : Nat) (st : ParseInput)
    (nodes : List ASTNode) (e : String),
    driverLoopF m st = (nodes, some e) → PErrShape e := by
  intro m
  induction m with
  | zero =>
    intro st nodes e h
    simp only [driverLoopF] at h
    injection h with h1 h2
    exact Option.noConfusion h2
  | succ k ih =>
    intro st nodes e h
    simp only [driverLoopF] at h
    by_cases hf : finished st
    · rw [if_pos hf] at h
      injection h with h1 h2
      exact Option.noConfusion h2
    · rw [if_neg hf] at h
      rcases hm : mainParserF (st.chars.length + 1) st with ⟨r, st1⟩
      rw [hm] at h
      rcases r with e2 | node
      · have h2 : (([] : List ASTNode), some e2) = (nodes, some e) := h
        injection h2 with h3 h4
        injection h4 with h4
        rw [← h4]
        exact (mainParserF_inv (st.chars.length + 1) st (by omega)).2 e2 st1 hm
      · have h2 : (node :: (driverLoopF k st1).1, (driverLoopF k st1).2) =
            (nodes, some e) := h
        rcases hd : driverLoopF k st1 with ⟨ns2, oe⟩
        rw [hd] at h2
        injection h2 with h3 h4
        have hoe : oe = some e := h4
        rw [hoe] at hd
        exact ih st1 ns2 e hd

theorem expectedFoundMsg_spec (ch : Char) (pc : ParsedChar) :
    expectedFoundMsg ch pc =
      "Expected: " ++ sq ++ ch.toString ++ sq ++ " at line: " ++ toString pc.line
        ++ ", column: " ++ toString pc.column ++ ", but found " ++ sq
        ++ pc.char.toString ++ sq := by
  have hmerge : ∀ s : String, " at " ++ ("line: " ++ s) = " at line: " ++ s := by
    intro s
    rw [← String.append_assoc]
    rfl
  unfold expectedFoundMsg displayLocation
  simp only [String.append_assoc]
  rw [hmerge]

theorem specFormat_of_PErrShape {e : String} (h : PErrShape e) : SpecErrorFormat e := by
  rcases h with ⟨pc, he⟩ | he
  · exact .inl ⟨oparen, pc.char, pc.line, pc.column, by rw [he, expectedFoundMsg_spec]⟩
  · exact .inr ⟨oparen, he⟩

/-! End-of-input behaviour of every candidate: once the whitespace skip
exhausts the buffer, all seven rules fail and the alternation surfaces
the parenthesis rule's end-of-input message. -/

theorem matchWord_of_end {st : ParseInput} {p : String}
    (hg : getNextChar st = none) (hp : p.length ≠ 0) :
    matchWord st p = false := by
  unfold matchWord getNextXChars
  rcases hn : p.length with _ | k
  · exact absurd hn hp
  · simp only [getNextXCharsGo]
    have hidx : st.chars[st.position]? = none := hg
    rw [hidx]

theorem skipString_noMatch_state {st : ParseInput} {p : String}
    (h : matchWord st p = false) : (skipString st p).2 = st := by
  unfold skipString
  rw [h]
  simp only [Bool.false_eq_true, if_false]
  rcases hgn : getNextChar st with _ | pc
  · rfl
  · rfl

theorem loadSavePoint_skipWs (st : ParseInput) :
    loadSavePoint (skipSpacesAndNewlines st) st.position = st := by
  unfold loadSavePoint
  rw [skipSpacesAndNewlines_chars]

theorem mainParserF_at_end (n : Nat) (st : ParseInput)
    (hg : getNextChar (skipSpacesAndNewlines st) = none) :
    mainParserF (n + 1) st = (.error (expectedEndMsg oparen), st) := by
  have h1 : parseFunctionWith (mainParserF n) (skipSpacesAndNewlines st) =
      (.error "Expected character, but found end of parser input",
        skipSpacesAndNewlines st) :=
    parseFunctionWith_of_nextErr (getNextCharResult_of_none hg)
  have hmw : matchWord (skipSpacesAndNewlines st) "let" = false :=
    matchWord_of_end hg (by decide)
  have hA2 : skipSpacesAndNewlines ((skipString (skipSpacesAndNewlines st) "let").2) =
      skipSpacesAndNewlines st := by
    rw [skipString_noMatch_state hmw]
    exact skipSpacesAndNewlines_none hg
  have h2 : parseAssignmentWith (mainParserF n) (skipSpacesAndNewlines st) =
      (.error "Expected character, but found end of parser input",
        skipSpacesAndNewlines st) := by
    rw [parseAssignmentWith_of_false hmw, hA2,
      parseAssignmentNoKeyword_of_err (getNextCharResult_of_none hg)]
  have h3 : parseStringLiteral (skipSpacesAndNewlines st) =
      (.error (expectedEndMsg dquote), skipSpacesAndNewlines st) :=
    parseStringLiteral_of_err (popChar_of_none hg)
  have h4 : parseInteger (skipSpacesAndNewlines st) =
      (.error "Expected character, but found end of parser input",
        skipSpacesAndNewlines st) :=
    parseInteger_of_err (popNumerical_of_none hg)
  have h5 : parseVariableRef (skipSpacesAndNewlines st) =
      (.error "Expected character, but found end of parser input",
        skipSpacesAndNewlines st) :=
    parseVariableRef_of_err (popAlphabetical_of_none hg)
  have h6 : parseScopeWith (mainParserF n) (skipSpacesAndNewlines st) =
      (.error (expectedEndMsg obrace), skipSpacesAndNewlines st) :=
    parseScopeWith_of_popErr (popChar_of_none hg)
  have h7 : parseParenthesesWith (mainParserF n) (skipSpacesAndNewlines st) =
      (.error (expectedEndMsg oparen), skipSpacesAndNewlines st) :=
    parseParenthesesWith_of_popErr (popChar_of_none hg)
  rw [mainParserF_succ]
  show tryParsersGo st.position (mainParsers n) st "" = _
  simp only [mainParsers]
  rw [tryParsersGo_cons_error h1, loadSavePoint_skipWs]
  rw [tryParsersGo_cons_error h2, loadSavePoint_skipWs]
  rw [tryParsersGo_cons_error h3, loadSavePoint_skipWs]
  rw [tryParsersGo_cons_error h4, loadSavePoint_skipWs]
  rw [tryParsersGo_cons_error h5, loadSavePoint_skipWs]
  rw [tryParsersGo_cons_error h6, loadSavePoint_skipWs]
  rw [tryParsersGo_cons_error h7, loadSavePoint_skipWs]
  rfl

/-- **C4.** Every error string surfaced by the top-level driver loop on
a failed parse has exactly the form `Expected: <X> at line: <L>, column:
<C>, but found <Y>` (with the expected and found characters quoted) when
a character was present at the failure point, or `Expected: <X>, but
found end of parse text` when the cursor was exhausted, with the fields
in exactly that order. -/
theorem claim4_driver_error_format (text : String) (nodes : List ASTNode) (e : String)
    (h : parseProgram text = (nodes, some e)) : SpecErrorFormat e :=
  specFormat_of_PErrShape
    (driverLoopF_error_shape ((ParseInput.new text).chars.length + 1)
      (ParseInput.new text) nodes e h)

theorem claim4_driver_error_format_witness :
    SpecErrorFormat (expectedFoundMsg oparen ⟨Char.ofNat 35, 1, 1⟩) :=
  claim4_driver_error_format "#" [] (expectedFoundMsg oparen ⟨Char.ofNat 35, 1, 1⟩)
    (by rfl)

/-- **C5.** The backtracking alternation, given a cursor and an ordered
candidate list, takes a save point and runs the rules in order (each on
the whitespace-skipped cursor); on the first success it returns that
rule's result with the cursor exactly where the rule left it; every
earlier candidate failed; and when every candidate fails the cursor is
restored to the entry state and the error is the last candidate's error
message. -/
theorem claim5_alternation (ps : List (ParseInput → PRes)) (input : ParseInput)
    (hP : ∀ p ∈ ps, ∀ i, ((p i).2).chars = i.chars) :
    (∀ v out, tryParsersWithList ps input = (.ok v, out) →
      ∃ k, ∃ hk : k < ps.length,
        (∀ j, ∀ hj : j < k, ∃ e o,
          (ps.get ⟨j, by omega⟩) (skipSpacesAndNewlines input) = (.error e, o)) ∧
        (ps.get ⟨k, hk⟩) (skipSpacesAndNewlines input) = (.ok v, out)) ∧
    (∀ e out, tryParsersWithList ps input = (.error e, out) →
      out = input ∧
      (∀ j, ∀ hj : j < ps.length, ∃ e2 o,
        (ps.get ⟨j, hj⟩) (skipSpacesAndNewlines input) = (.error e2, o)) ∧
      (∀ hne : ps ≠ [], ∃ o,
        (ps.getLast hne) (skipSpacesAndNewlines input) = (.error e, o))) := by
  constructor
  · intro v out h
    exact tryParsersGo_ok_cases ps input "" v out hP h
  · intro e out h
    obtain ⟨hout, hall, hlast⟩ := tryParsersGo_error_cases ps input "" e out hP h
    refine ⟨hout, hall, ?_⟩
    intro hne
    rcases hlast with ⟨hnil, -⟩ | ⟨hne2, o, ho⟩
    · exact absurd hnil hne
    · exact ⟨o, ho⟩

theorem claim5_alternation_witness :
    ParseInput.new "x" = ParseInput.new "x" ∧
    ∃ e2 o, parseStringLiteral (skipSpacesAndNewlines (ParseInput.new "x")) =
      (.error e2, o) := by
  have happ := (claim5_alternation [parseStringLiteral] (ParseInput.new "x")
    (by
      intro p hp i
      simp only [List.mem_singleton] at hp
      rw [hp]
      exact parseStringLiteral_chars i)).2
    (expectedFoundMsg dquote ⟨Char.ofNat 120, 1, 1⟩) (ParseInput.new "x") (by rfl)
  exact ⟨happ.1, happ.2.1 0 (by decide)⟩

/-- **C10.** When the main parser consumes a well-formed expression and
leaves only whitespace (at least one character) in the buffer, the
driver loop does not terminate cleanly: it collects that node and then
stops with the parenthesis rule's end-of-input error, because the save
point restore undoes the whitespace skipping performed before each
candidate and the trailing whitespace is never consumed. -/
theorem claim10_trailing_spaces (text : String) (node : ASTNode) (st1 : ParseInput)
    (h1 : mainParserF ((ParseInput.new text).chars.length + 1) (ParseInput.new text) =
      (.ok node, st1))
    (h2 : st1.position < st1.chars.length)
    (hws : ∀ pc ∈ st1.chars.drop st1.position, wsChars.contains pc.char) :
    parseProgram text = ([node], some (expectedEndMsg oparen)) := by
  obtain ⟨hadv, hle⟩ := (mainParserF_inv ((ParseInput.new text).chars.length + 1)
    (ParseInput.new text) (by omega)).1 node st1 h1
  have hfin0 : finished (ParseInput.new text) = false := by
    unfold finished
    rw [getNextChar_of_lt (by omega)]
    rfl
  have htw : (st1.chars.drop st1.position).takeWhile
      (fun pc => wsChars.contains pc.char) = st1.chars.drop st1.position :=
    List.takeWhile_eq_self_iff.mpr hws
  have hpos1 : (skipSpacesAndNewlines st1).position = st1.chars.length := by
    rw [skipSpacesAndNewlines_eq]
    show st1.position + ((st1.chars.drop st1.position).takeWhile
      (fun pc => wsChars.contains pc.char)).length = st1.chars.length
    rw [htw, List.length_drop]
    omega
  have h3 : getNextChar (skipSpacesAndNewlines st1) = none := by
    unfold getNextChar
    apply List.getElem?_eq_none
    rw [skipSpacesAndNewlines_chars, hpos1]
  have hfin1 : finished st1 = false := by
    unfold finished
    rw [getNextChar_of_lt h2]
    rfl
  obtain ⟨k, hk⟩ : ∃ k, (ParseInput.new text).chars.length = k + 1 :=
    ⟨(ParseInput.new text).chars.length - 1, by omega⟩
  have hrun : driverLoopF ((ParseInput.new text).chars.length) st1 =
      ([], some (expectedEndMsg oparen)) := by
    rw [hk]
    simp only [driverLoopF]
    rw [if_neg (by simp [hfin1]), mainParserF_at_end st1.chars.length st1 h3]
  unfold parseProgram
  simp only [driverLoopF]
  rw [if_neg (by simp [hfin0]), h1]
  show (node :: (driverLoopF ((ParseInput.new text).chars.length) st1).1,
    (driverLoopF ((ParseInput.new text).chars.length) st1).2) =
    ([node], some (expectedEndMsg oparen))
  rw [hrun]

theorem claim10_trailing_spaces_witness :
    parseProgram "5 " =
      ([ASTNode.mk (.ASTInteger 5) ⟨1, 1⟩], some (expectedEndMsg oparen)) :=
  claim10_trailing_spaces "5 " (ASTNode.mk (.ASTInteger 5) ⟨1, 1⟩)
    { position := 1, chars := (ParseInput.new "5 ").chars }
    (by rfl) (by decide) (by decide)

/-- **C6 counterexample.** The keyword check for `let` is a bare prefix
comparison: on `let_value` it reports a match, and on `letx = 5` the
Assignment rule takes its keyword path and parses the input as an
Initialization of `x` — the leading `let` is consumed as the keyword. -/
theorem claim6_counterexample :
    matchWord (ParseInput.new "let_value") "let" = true ∧
    parseProgram "letx = 5" =
      ([ASTNode.mk (.ASTInitialization "x" (ASTNode.mk (.ASTInteger 5) ⟨1, 8⟩))
        ⟨1, 1⟩], none) := by
  constructor
  · rfl
  · rfl

/-- **C6 amended.** `match_word` has no word-boundary check, so `let`
matches the front of a longer identifier: `let_value` passes the keyword
check, and `letx = 5` is parsed as `Initialization(x, 5)`.  An input
like `let_value` still ends up a variable reference only because the
Assignment rule fails later (no identifier after the skipped keyword)
and the alternation backtracks to the variable-reference rule. -/
theorem claim6_amended :
    matchWord (ParseInput.new "let_value") "let" = true ∧
    parseProgram "let_value" =
      ([ASTNode.mk (.ASTVariableRef "let_value") ⟨1, 1⟩], none) := by
  constructor
  · rfl
  · rfl

/-! Claim C8: integer overflow is a parse error, never a wraparound. -/

theorem isDigit_not_isAlpha {d : Char} (hd : d.isDigit = true) : d.isAlpha = false := by
  unfold Char.isDigit at hd
  unfold Char.isAlpha Char.isUpper Char.isLower
  simp only [Bool.and_eq_true, decide_eq_true_eq] at hd
  obtain ⟨h1, h2⟩ := hd
  have h2n : d.val.toNat ≤ (57 : UInt32).toNat := h2
  have he57 : (57 : UInt32).toNat = 57 := rfl
  rw [he57] at h2n
  simp only [Bool.or_eq_false_iff, Bool.and_eq_false_iff, decide_eq_false_iff_not]
  refine ⟨.inl ?_, .inl ?_⟩
  · intro hcon
    have hn : (65 : UInt32).toNat ≤ d.val.toNat := hcon
    have he : (65 : UInt32).toNat = 65 := rfl
    rw [he] at hn
    omega
  · intro hcon
    have hn : (97 : UInt32).toNat ≤ d.val.toNat := hcon
    have he : (97 : UInt32).toNat = 97 := rfl
    rw [he] at hn
    omega

theorem mainParserF_digit_overflow (n : Nat) (d : Char) (rest : List Char)
    (hdig : ∀ c ∈ d :: rest, c.isDigit = true)
    (hbig : 2 ^ 63 - 1 < digitsVal (d :: rest)) :
    mainParserF (n + 1) ⟨0, numberLine 1 1 (d :: rest)⟩ =
      (.error (expectedFoundMsg oparen ⟨d, 1, 1⟩), ⟨0, numberLine 1 1 (d :: rest)⟩) := by
  set st0 : ParseInput := ⟨0, numberLine 1 1 (d :: rest)⟩ with hst0
  have hd : d.isDigit = true := hdig d (by simp)
  have hg : getNextChar st0 = some ⟨d, 1, 1⟩ := by
    rw [hst0]
    simp [getNextChar, numberLine]
  have hne_l : d ≠ Char.ofNat 108 := fun h => by
    rw [h] at hd
    exact absurd hd (by decide)
  have hne_p : d ≠ oparen := fun h => by
    rw [h] at hd
    exact absurd hd (by decide)
  have hne_b : d ≠ obrace := fun h => by
    rw [h] at hd
    exact absurd hd (by decide)
  have hne_q : d ≠ dquote := fun h => by
    rw [h] at hd
    exact absurd hd (by decide)
  have halpha : rustIsAlphabetic d = false := isDigit_not_isAlpha hd
  have hwsd : wsChars.contains d = false := by
    cases hcb : wsChars.contains d
    · rfl
    · have hmem : d ∈ wsChars := by simpa using hcb
      simp only [wsChars, List.mem_cons, List.not_mem_nil, or_false] at hmem
      rcases hmem with h | h | h <;> (rw [h] at hd; exact absurd hd (by decide))
  have hA : skipSpacesAndNewlines st0 = st0 := skipSpacesAndNewlines_not_ws hg hwsd
  have h1 : parseFunctionWith (mainParserF n) (skipSpacesAndNewlines st0) =
      (.error (expectedFoundMsg oparen ⟨d, 1, 1⟩), st0) := by
    rw [hA, parseFunctionWith_of_nextOk (getNextCharResult_of_some hg),
      parseFunctionAfterFirst_of_parenErr
        (parseParenthesesWith_of_popErr (popChar_of_mismatch hg hne_p))]
  have hmw : matchWord st0 "let" = false := matchWord_let_false hg hne_l
  have h2 : parseAssignmentWith (mainParserF n) (skipSpacesAndNewlines st0) =
      (.error ("Expected alphabetical character at " ++ displayLocation ⟨d, 1, 1⟩
        ++ ", but found " ++ d.toString), st0) := by
    rw [hA, parseAssignmentWith_of_false hmw, skipString_noMatch_state hmw, hA,
      parseAssignmentNoKeyword_of_ok (getNextCharResult_of_some hg),
      parseAssignmentFinish_of_nameErr
        (parseName_of_err (popAlphabetical_of_false hg halpha))]
  have h3 : parseStringLiteral (skipSpacesAndNewlines st0) =
      (.error (expectedFoundMsg dquote ⟨d, 1, 1⟩), st0) := by
    rw [hA]
    exact parseStringLiteral_of_err (popChar_of_mismatch hg hne_q)
  have h4 : parseInteger (skipSpacesAndNewlines st0) =
      (.error "number too large to fit in target type",
       ⟨(d :: rest).length, numberLine 1 1 (d :: rest)⟩) := by
    rw [hA, hst0]
    have hint := parseInteger_digits (List.cons_ne_nil d rest) hdig
    rw [strParseI64_digits (by simp) hdig, if_neg (by omega)] at hint
    exact hint
  have h5 : parseVariableRef (skipSpacesAndNewlines st0) =
      (.error ("Expected alphabetical character at " ++ displayLocation ⟨d, 1, 1⟩
        ++ ", but found " ++ d.toString), st0) := by
    rw [hA]
    exact parseVariableRef_of_err (popAlphabetical_of_false hg halpha)
  have h6 : parseScopeWith (mainParserF n) (skipSpacesAndNewlines st0) =
      (.error (expectedFoundMsg obrace ⟨d, 1, 1⟩), st0) := by
    rw [hA]
    exact parseScopeWith_of_popErr (popChar_of_mismatch hg hne_b)
  have h7 : parseParenthesesWith (mainParserF n) (skipSpacesAndNewlines st0) =
      (.error (expectedFoundMsg oparen ⟨d, 1, 1⟩), st0) := by
    rw [hA]
    exact parseParenthesesWith_of_popErr (popChar_of_mismatch hg hne_p)
  have hload0 : loadSavePoint st0 st0.position = st0 := rfl
  have hload4 : loadSavePoint ⟨(d :: rest).length, numberLine 1 1 (d :: rest)⟩
      st0.position = st0 := rfl
  rw [mainParserF_succ]
  show tryParsersGo st0.position (mainParsers n) st0 "" = _
  simp only [mainParsers]
  rw [tryParsersGo_cons_error h1, hload0]
  rw [tryParsersGo_cons_error h2, hload0]
  rw [tryParsersGo_cons_error h3, hload0]
  rw [tryParsersGo_cons_error h4, hload4]
  rw [tryParsersGo_cons_error h5, hload0]
  rw [tryParsersGo_cons_error h6, hload0]
  rw [tryParsersGo_cons_error h7, hload0]
  rfl

/-- **C8.** For every non-empty digit string whose value exceeds the
`i64` range, the integer rule returns the overflow error of
`str::parse::<i64>` (the cursor having consumed the digits) rather than
an Integer node with a wrapped value, and the overall parse of that
input fails with a standard parse error. -/
theorem claim8_integer_overflow (ds : List Char) (hne : ds ≠ [])
    (hdig : ∀ c ∈ ds, c.isDigit = true) (hbig : 2 ^ 63 - 1 < digitsVal ds) :
    parseInteger (ParseInput.new (String.mk ds)) =
      (.error "number too large to fit in target type",
       ⟨ds.length, numberLine 1 1 ds⟩) ∧
    ∃ e, parseProgram (String.mk ds) = ([], some e) ∧ SpecErrorFormat e := by
  have hnn : ∀ c ∈ ds, c ≠ '\n' := fun c hc h => by
    have hd := hdig c hc
    rw [h] at hd
    exact absurd hd (by decide)
  have hnew := new_no_newline hnn
  rcases ds with _ | ⟨d, rest⟩
  · exact absurd rfl hne
  constructor
  · rw [hnew, parseInteger_digits (by simp) hdig,
      strParseI64_digits (by simp) hdig, if_neg (by omega)]
    rfl
  · refine ⟨expectedFoundMsg oparen ⟨d, 1, 1⟩, ?_,
      .inl ⟨oparen, d, 1, 1, expectedFoundMsg_spec oparen ⟨d, 1, 1⟩⟩⟩
    unfold parseProgram
    rw [hnew]
    simp only [driverLoopF]
    have hg : getNextChar (⟨0, numberLine 1 1 (d :: rest)⟩ : ParseInput) =
        some ⟨d, 1, 1⟩ := by
      simp [getNextChar, numberLine]
    rw [if_neg (by simp [finished, hg])]
    rw [mainParserF_digit_overflow
      ((⟨0, numberLine 1 1 (d :: rest)⟩ : ParseInput).chars.length) d rest hdig hbig]

/-- Witness for C8 at the 19-digit input `9999999999999999999`, whose
value exceeds `2^63 - 1`. -/
theorem claim8_integer_overflow_witness :
    parseInteger (ParseInput.new (String.mk "9999999999999999999".toList)) =
      (.error "number too large to fit in target type",
       ⟨"9999999999999999999".toList.length,
        numberLine 1 1 "9999999999999999999".toList⟩) ∧
    ∃ e, parseProgram (String.mk "9999999999999999999".toList) = ([], some e) ∧
      SpecErrorFormat e :=
  claim8_integer_overflow "9999999999999999999".toList (by decide) (by decide) (by decide)

/-- **C1.** In the nom prototype, the Function rule parses `|`, one or
more whitespace-separated identifiers, `|`, whitespace, and one body
expression, right-folding the parameters into nested single-argument
Function nodes: parsing `|x y z| (x y z)` yields a tree structurally
equal to the one from `|x| |y| |z| (x y z)`, both the nested
single-parameter chain `Function(x, Function(y, Function(z, ...)))`. -/
theorem claim1_currying :
    Nom.astParse "|x y z| (x y z)" = Nom.astParse "|x| |y| |z| (x y z)" ∧
    Nom.astParse "|x y z| (x y z)" =
      .ok [] (.Function "x" (.Function "y" (.Function "z"
        (.Parentheses [.VariableRef "x", .VariableRef "y",
          .VariableRef "z"])))) := by
  have h1 : Nom.astParse "|x y z| (x y z)" =
      .ok [] (.Function "x" (.Function "y" (.Function "z"
        (.Parentheses [.VariableRef "x", .VariableRef "y",
          .VariableRef "z"])))) := rfl
  have h2 : Nom.astParse "|x| |y| |z| (x y z)" =
      .ok [] (.Function "x" (.Function "y" (.Function "z"
        (.Parentheses [.VariableRef "x", .VariableRef "y",
          .VariableRef "z"])))) := rfl
  exact ⟨h1.trans h2.symm, h1⟩

end LC
